import Mathlib

/-!
Verification of the feredis in-memory key-value server.

The development shallowly embeds the Rust sources:
  * `src/core/src/item.rs`  — the RESP codec (`RedisItem::serialize`,
    `ItemParser::parse_partial`, `ItemParser::parse`);
  * `src/server/src/main.rs` — the keyspace and the command handlers;
  * `src/src/expire.rs`      — the expiration index and the expire worker.

Byte strings are modelled as `List Nat` (each element a byte value); Rust
`String` payloads are modelled by their UTF-8 byte sequences, and the
`std::str::from_utf8` checks in the parser are modelled as the identity on
byte lists (every byte list a serialized `RedisItem` can produce is valid
UTF-8 of the original string by construction).  Machine integers are `Nat` /
`Int` with explicit range checks where the Rust code performs a bounded
parse.  Monotonic instants (`std::time::Instant`) are modelled as `Nat`.
-/

namespace Feredis

abbrev Bytes := List Nat

/-- ASCII byte sequence of a literal (used for the fixed reply strings). -/
def ascii (s : String) : Bytes := s.data.map Char.toNat

/-- A byte is an ASCII decimal digit. -/
def isDigit (b : Nat) : Bool := 48 ≤ b && b ≤ 57

/-- Numeric value of a run of ASCII digit bytes, most significant first
(the accumulator loop of Rust's integer `from_str`). -/
def digitsVal (bs : Bytes) : Nat :=
  bs.foldl (fun acc b => acc * 10 + (b - 48)) 0

/-- Digit-run parse shared by the bounded integer parsers: requires a
non-empty all-digit string. -/
def parseDigits (bs : Bytes) : Option Nat :=
  if bs ≠ [] ∧ bs.all isDigit then some (digitsVal bs) else none

/-- Drop the optional leading `+` accepted by Rust's unsigned `from_str`. -/
def stripPlus : Bytes → Bytes
  | 43 :: rest => rest
  | bs => bs

/-- Rust `u64::from_str`: optional leading `+`, digits, overflow rejected. -/
def parseU64 (bs : Bytes) : Option Nat :=
  match parseDigits (stripPlus bs) with
  | some n => if n < 2 ^ 64 then some n else none
  | none => none

/-- Rust `u32::from_str`: optional leading `+`, digits, overflow rejected. -/
def parseU32 (bs : Bytes) : Option Nat :=
  match parseDigits (stripPlus bs) with
  | some n => if n < 2 ^ 32 then some n else none
  | none => none

/-- Rust `i64::from_str`: optional sign, digits, overflow rejected. -/
def parseI64 (bs : Bytes) : Option Int :=
  match bs with
  | 45 :: ds =>
    match parseDigits ds with
    | some n => if n ≤ 2 ^ 63 then some (-(n : Int)) else none
    | none => none
  | 43 :: ds =>
    match parseDigits ds with
    | some n => if n < 2 ^ 63 then some ((n : Int)) else none
    | none => none
  | ds =>
    match parseDigits ds with
    | some n => if n < 2 ^ 63 then some ((n : Int)) else none
    | none => none

/-- Decimal digits of a natural number, most significant first, as ASCII
bytes.  The first argument is fuel for structural recursion; `natToBytes`
supplies enough. -/
def natToBytesAux : Nat → Nat → Bytes
  | 0, _ => []
  | fuel + 1, n =>
    if n = 0 then [] else natToBytesAux fuel (n / 10) ++ [48 + n % 10]

/-- Rust `u64::to_string` / array-length formatting: decimal ASCII. -/
def natToBytes (n : Nat) : Bytes :=
  if n = 0 then [48] else natToBytesAux n n

/-- Rust `i64::to_string`: minus sign then decimal magnitude. -/
def intToBytes (v : Int) : Bytes :=
  if v < 0 then 45 :: natToBytes v.natAbs else natToBytes v.toNat

/-- The protocol value type (`RedisItem` in `src/core/src/item.rs`);
string payloads are their UTF-8 byte sequences. -/
inductive RedisItem where
  | simpleString (val : Bytes)
  | simpleError (val : Bytes)
  | integer (val : Int)
  | bulkString (val : Bytes)
  | array (val : List RedisItem)
  | null
  | boolean (val : Bool)

mutual

/-- `RedisItem::serialize`: the RESP wire encoding appended by the Rust
serializer (modelled as the byte list it appends). -/
def serialize : RedisItem → Bytes
  | .simpleString v => 43 :: (v ++ [13, 10])
  | .simpleError v => 45 :: (v ++ [13, 10])
  | .integer v => 58 :: (intToBytes v ++ [13, 10])
  | .bulkString v => 36 :: (natToBytes v.length ++ [13, 10] ++ v ++ [13, 10])
  | .array xs => 42 :: (natToBytes xs.length ++ [13, 10] ++ serializeList xs)
  | .null => [95, 13, 10]
  | .boolean b => if b then [35, 116, 13, 10] else [35, 102, 13, 10]

/-- Serialization of a list of items in order (the loop in the `Array`
arm of `RedisItem::serialize`). -/
def serializeList : List RedisItem → Bytes
  | [] => []
  | x :: xs => serialize x ++ serializeList xs

end

mutual

/-- Values on which the line-delimited parser can invert `serialize`:
every string payload is free of LF bytes (the parser reads lines), every
integer is in the `i64` range carried by the Rust type, and every array
length fits the `u32` count parse. -/
def wfItem : RedisItem → Bool
  | .simpleString v => v.all (· ≠ 10)
  | .simpleError v => v.all (· ≠ 10)
  | .integer v => decide (-(2 ^ 63 : Int) ≤ v) && decide (v < 2 ^ 63)
  | .bulkString v => v.all (· ≠ 10)
  | .array xs => decide (xs.length < 2 ^ 32) && wfList xs
  | .null => true
  | .boolean _ => true

/-- All items of a list are well-formed. -/
def wfList : List RedisItem → Bool
  | [] => true
  | x :: xs => wfItem x && wfList xs

end

/-! ## The incremental parser (`ItemParser` in `src/core/src/item.rs`)

The Rust parser reads from an async buffered stream with
`read_until(b'\n', ..)`; the stream is modelled as the byte list not yet
consumed, and a read returns the consumed line together with the rest.
The `IoError` variant of `ParseError` cannot arise on a pure byte list and
is omitted. -/

/-- Errors of `ItemParser` (minus the I/O variant, see above). -/
inductive ParseError where
  | incomplete
  | invalid
deriving DecidableEq

/-- A pending `ParseState::List` frame on the parser's explicit stack. -/
structure PState where
  remaining : Nat
  items : List RedisItem

/-- Result of `parse_partial`: a completed value or a pending list frame. -/
inductive PRes where
  | pending (st : PState)
  | complete (v : RedisItem)

/-- Model of `read_until(b'\n', &mut buffer)`: the line read (including
the terminating LF when one is found before end of stream) and the rest. -/
def readUntilLF : Bytes → Bytes × Bytes
  | [] => ([], [])
  | b :: rest =>
    if b = 10 then ([10], rest)
    else
      let (l, r) := readUntilLF rest
      (b :: l, r)

/-- `ItemParser::parse_partial`: reads one header line and produces either
a complete value or a pending array frame.  The `str::from_utf8` checks
are the identity on the byte-list model (see the module comment). -/
def parsePartial (stream : Bytes) : Except ParseError (PRes × Bytes) :=
  let (buf, rest) := readUntilLF stream
  if buf.length < 3 then .error .incomplete
  else
    match buf with
    | b0 :: btl =>
      if b0 = 95 then .ok (.complete .null, rest)
      else if b0 = 35 then
        -- buffer[1] exists because the length check above passed
        match btl with
        | b1 :: _ =>
          if b1 = 116 then .ok (.complete (.boolean true), rest)
          else if b1 = 102 then .ok (.complete (.boolean false), rest)
          else .error .invalid
        | [] => .error .invalid
      else if b0 = 36 then
        let (buf2, rest2) := readUntilLF rest
        if buf2.length < 2 then .error .incomplete
        else .ok (.complete (.bulkString (buf2.take (buf2.length - 2))), rest2)
      else if b0 = 43 then
        .ok (.complete (.simpleString ((buf.drop 1).take (buf.length - 3))), rest)
      else if b0 = 45 then
        .ok (.complete (.simpleError ((buf.drop 1).take (buf.length - 3))), rest)
      else if b0 = 58 then
        match parseI64 ((buf.drop 1).take (buf.length - 3)) with
        | some v => .ok (.complete (.integer v), rest)
        | none => .error .invalid
      else if b0 = 42 then
        match parseU32 ((buf.drop 1).take (buf.length - 3)) with
        | some n => .ok (.pending ⟨n, []⟩, rest)
        | none => .error .invalid
      else .error .invalid
    | _ => .error .incomplete

/-- Splitting fact for `readUntilLF`: the line and the rest rebuild the
stream, so a successful `parsePartial` consumes at least three bytes. -/
theorem readUntilLF_append (s : Bytes) :
    (readUntilLF s).1 ++ (readUntilLF s).2 = s := by
  induction s with
  | nil => simp [readUntilLF]
  | cons b rest ih =>
    by_cases hb : b = 10 <;> simp [readUntilLF, hb] <;> exact ih

theorem parsePartial_consumes {stream : Bytes} {r : PRes} {rest : Bytes}
    (h : parsePartial stream = .ok (r, rest)) :
    rest.length + 3 ≤ stream.length := by
  have hsplit := readUntilLF_append stream
  unfold parsePartial at h
  rcases hrw : readUntilLF stream with ⟨buf, rst⟩
  rw [hrw] at h hsplit
  dsimp only at h
  have hslen : stream.length = buf.length + rst.length := by
    rw [← hsplit]; simp
  have h2 : (readUntilLF rst).1.length + (readUntilLF rst).2.length
      = rst.length := by
    conv_rhs => rw [← readUntilLF_append rst]
    simp
  by_cases hlen : buf.length < 3
  · simp [hlen] at h
  · simp only [hlen, if_false] at h
    rcases buf with _ | ⟨b0, btl⟩
    · simp at h
    · dsimp only at h
      split_ifs at h
      all_goals
        first
        | (simp only [Except.ok.injEq, Prod.mk.injEq] at h
           obtain ⟨-, rfl⟩ := h
           omega)
        | (rcases btl with _ | ⟨b1, btl2⟩
           · simp at h
           · dsimp only at h
             split_ifs at h
             all_goals
               first
               | (simp only [Except.ok.injEq, Prod.mk.injEq] at h
                  obtain ⟨-, rfl⟩ := h
                  omega)
               | simp at h)
        | (rcases hI : parseI64 (List.take ((b0 :: btl).length - 3)
              (List.drop 1 (b0 :: btl))) with _ | v <;>
             rw [hI] at h
           · simp at h
           · simp only [Except.ok.injEq, Prod.mk.injEq] at h
             obtain ⟨-, rfl⟩ := h
             omega)
        | (rcases hU : parseU32 (List.take ((b0 :: btl).length - 3)
              (List.drop 1 (b0 :: btl))) with _ | n <;>
             rw [hU] at h
           · simp at h
           · simp only [Except.ok.injEq, Prod.mk.injEq] at h
             obtain ⟨-, rfl⟩ := h
             omega)
        | simp at h

/-- The explicit-stack loop of `ItemParser::parse` (the `while let` over
`self.stack`), operating on the not-yet-consumed stream and the stack.
The Rust loop folds both sources of a completed value (a finished frame
and a `parse_partial` result) through one shared `match`; that match is
split across the two paths here, so its `remaining == 0 => Invalid`
check appears only on the finished-frame path, the one place it is
reachable (on the other path the current frame's `remaining` is known to
be nonzero). -/
def parseLoop (stream : Bytes) (stack : List PState) :
    Except ParseError (RedisItem × Bytes) :=
  match stack with
  | [] => .error .incomplete
  | st :: stackRest =>
    if st.remaining = 0 then
      -- a finished List frame folds into its parent, or is the result
      let res := RedisItem.array st.items
      match stackRest with
      | [] => .ok (res, stream)
      | parent :: rest2 =>
        if parent.remaining = 0 then .error .invalid
        else parseLoop stream
          (⟨parent.remaining - 1, parent.items ++ [res]⟩ :: rest2)
    else
      match hp : parsePartial stream with
      | .error e => .error e
      | .ok (.pending newSt, stream') =>
        parseLoop stream' (newSt :: st :: stackRest)
      | .ok (.complete v, stream') =>
        parseLoop stream' (⟨st.remaining - 1, st.items ++ [v]⟩ :: stackRest)
termination_by stream.length + stack.length
decreasing_by
  all_goals
    first
    | (simp only [List.length_cons]; omega)
    | (have hcons := parsePartial_consumes hp
       simp only [List.length_cons]
       omega)

/-- `ItemParser::parse`: one complete top-level value from the stream,
returning the value together with the unconsumed rest of the stream. -/
def parse (stream : Bytes) : Except ParseError (RedisItem × Bytes) :=
  match parsePartial stream with
  | .error e => .error e
  | .ok (.complete v, rest) => .ok (v, rest)
  | .ok (.pending st, rest) => parseLoop rest [st]

/-! ## Decimal round-trip facts -/

theorem foldl_digitsVal (bs : Bytes) :
    ∀ acc, bs.foldl (fun acc b => acc * 10 + (b - 48)) acc
      = acc * 10 ^ bs.length + digitsVal bs := by
  induction bs with
  | nil => intro acc; simp [digitsVal]
  | cons b tl ih =>
    intro acc
    have h1 := ih (acc * 10 + (b - 48))
    have h2 := ih (0 * 10 + (b - 48))
    simp only [List.foldl_cons, digitsVal] at h1 h2 ⊢
    rw [h1, h2, List.length_cons]
    ring

theorem natToBytesAux_all_digits (fuel : Nat) :
    ∀ n, (natToBytesAux fuel n).all isDigit = true := by
  induction fuel with
  | zero => intro n; simp [natToBytesAux]
  | succ f ih =>
    intro n
    by_cases hn : n = 0
    · simp [natToBytesAux, hn]
    · simp only [natToBytesAux, hn, if_false, List.all_append, Bool.and_eq_true]
      refine ⟨ih _, ?_⟩
      have : n % 10 < 10 := Nat.mod_lt _ (by omega)
      simp [isDigit]
      omega

theorem digitsVal_natToBytesAux (fuel : Nat) :
    ∀ n, n < 10 ^ fuel → digitsVal (natToBytesAux fuel n) = n := by
  induction fuel with
  | zero =>
    intro n hn
    have : n = 0 := by simpa using hn
    subst this
    simp [natToBytesAux, digitsVal]
  | succ f ih =>
    intro n hn
    by_cases hz : n = 0
    · simp [natToBytesAux, hz, digitsVal]
    · simp only [natToBytesAux, hz, if_false]
      have hdiv : n / 10 < 10 ^ f := by
        rw [Nat.div_lt_iff_lt_mul (by omega)]
        calc n < 10 ^ (f + 1) := hn
        _ = 10 ^ f * 10 := by ring
      have hih := ih (n / 10) hdiv
      simp only [digitsVal, List.foldl_append, List.foldl_cons, List.foldl_nil]
      rw [show (List.foldl (fun acc b => acc * 10 + (b - 48)) 0
          (natToBytesAux f (n / 10))) = digitsVal (natToBytesAux f (n / 10))
          from rfl, hih]
      have hmod : n % 10 < 10 := Nat.mod_lt _ (by omega)
      have : 48 + n % 10 - 48 = n % 10 := by omega
      rw [this]
      omega

theorem lt_ten_pow_self (n : Nat) : n < 10 ^ n := by
  induction n with
  | zero => simp
  | succ k ih =>
    have : 10 ^ (k + 1) = 10 ^ k * 10 := by ring
    omega

theorem natToBytes_all_digits (n : Nat) :
    (natToBytes n).all isDigit = true := by
  by_cases hn : n = 0
  · simp [natToBytes, hn, isDigit]
  · simp only [natToBytes, hn, if_false]
    exact natToBytesAux_all_digits n n

theorem natToBytes_ne_nil (n : Nat) : natToBytes n ≠ [] := by
  by_cases hn : n = 0
  · simp [natToBytes, hn]
  · simp only [natToBytes, hn, if_false]
    match hf : n with
    | f + 1 =>
      simp [natToBytesAux]

theorem digitsVal_natToBytes (n : Nat) : digitsVal (natToBytes n) = n := by
  by_cases hn : n = 0
  · simp [natToBytes, hn, digitsVal]
  · simp only [natToBytes, hn, if_false]
    exact digitsVal_natToBytesAux n n (lt_ten_pow_self n)

theorem parseDigits_natToBytes (n : Nat) :
    parseDigits (natToBytes n) = some n := by
  simp [parseDigits, natToBytes_ne_nil, natToBytes_all_digits,
    digitsVal_natToBytes]

theorem natToBytes_head_not_sign (n : Nat) :
    ∀ b tl, natToBytes n = b :: tl → b ≠ 43 ∧ b ≠ 45 := by
  intro b tl hbt
  have hall := natToBytes_all_digits n
  rw [hbt] at hall
  simp only [List.all_cons, Bool.and_eq_true] at hall
  have hd := hall.1
  simp [isDigit] at hd
  omega

theorem stripPlus_of_ne (b : Nat) (tl : Bytes) (h : b ≠ 43) :
    stripPlus (b :: tl) = b :: tl := by
  unfold stripPlus
  split
  · next heq =>
    injection heq with h1 _
    exact absurd h1 h
  · rfl

theorem stripPlus_natToBytes (n : Nat) :
    stripPlus (natToBytes n) = natToBytes n := by
  match hb : natToBytes n with
  | [] => exact absurd hb (natToBytes_ne_nil n)
  | b :: tl =>
    obtain ⟨h43, -⟩ := natToBytes_head_not_sign n b tl hb
    exact stripPlus_of_ne b tl h43

theorem parseU64_natToBytes {n : Nat} (hn : n < 2 ^ 64) :
    parseU64 (natToBytes n) = some n := by
  unfold parseU64
  rw [stripPlus_natToBytes, parseDigits_natToBytes]
  norm_num at hn
  simp [hn]

theorem parseU32_natToBytes {n : Nat} (hn : n < 2 ^ 32) :
    parseU32 (natToBytes n) = some n := by
  unfold parseU32
  rw [stripPlus_natToBytes, parseDigits_natToBytes]
  norm_num at hn
  simp [hn]

theorem parseI64_of_head_digit (b : Nat) (tl : Bytes) (h43 : b ≠ 43)
    (h45 : b ≠ 45) :
    parseI64 (b :: tl)
      = match parseDigits (b :: tl) with
        | some n => if n < 2 ^ 63 then some ((n : Int)) else none
        | none => none := by
  unfold parseI64
  split
  · next heq =>
    injection heq with h1 _
    exact absurd h1 h45
  · next heq =>
    injection heq with h1 _
    exact absurd h1 h43
  · rfl

theorem parseI64_cons45 (tl : Bytes) :
    parseI64 (45 :: tl)
      = match parseDigits tl with
        | some n => if n ≤ 2 ^ 63 then some (-(n : Int)) else none
        | none => none := rfl

theorem parseI64_intToBytes {v : Int} (hlo : -(2 ^ 63 : Int) ≤ v)
    (hhi : v < 2 ^ 63) : parseI64 (intToBytes v) = some v := by
  by_cases hneg : v < 0
  · have hit : intToBytes v = 45 :: natToBytes v.natAbs := by
      simp [intToBytes, hneg]
    rw [hit, parseI64_cons45, parseDigits_natToBytes]
    have hle : v.natAbs ≤ 2 ^ 63 := by omega
    simp only [hle, if_true]
    congr 1
    omega
  · have hit : intToBytes v = natToBytes v.toNat := by
      simp [intToBytes, hneg]
    rw [hit]
    match hb : natToBytes v.toNat with
    | [] => exact absurd hb (natToBytes_ne_nil _)
    | b :: tl =>
      obtain ⟨h43, h45⟩ := natToBytes_head_not_sign _ b tl hb
      rw [parseI64_of_head_digit b tl h43 h45, ← hb, parseDigits_natToBytes]
      have hbound : v.toNat < 2 ^ 63 := by omega
      simp only [hbound, if_true]
      congr 1
      omega

theorem natToBytes_no_lf (n : Nat) : (natToBytes n).all (· ≠ 10) = true := by
  have hall := natToBytes_all_digits n
  rw [List.all_eq_true] at hall ⊢
  intro x hx
  have := hall x hx
  simp [isDigit] at this ⊢
  omega

theorem intToBytes_no_lf (v : Int) : (intToBytes v).all (· ≠ 10) = true := by
  by_cases hneg : v < 0
  · simp only [intToBytes, hneg, if_true, List.all_cons, Bool.and_eq_true]
    exact ⟨by norm_num, natToBytes_no_lf _⟩
  · simp only [intToBytes, hneg, if_false]
    exact natToBytes_no_lf _

/-! ## The parser inverts the serializer (up to the LF restriction) -/

theorem readUntilLF_line (a : Bytes) (r : Bytes) (h : a.all (· ≠ 10) = true) :
    readUntilLF (a ++ 10 :: r) = (a ++ [10], r) := by
  induction a with
  | nil => simp [readUntilLF]
  | cons b tl ih =>
    simp only [List.all_cons, Bool.and_eq_true] at h
    have hb : b ≠ 10 := by simpa using h.1
    simp only [List.cons_append, readUntilLF, hb, if_false, List.append_eq,
      ih h.2]

theorem parsePartial_serialize_simpleString (s : Bytes)
    (h : s.all (· ≠ 10) = true) (rest : Bytes) :
    parsePartial (serialize (.simpleString s) ++ rest)
      = .ok (.complete (.simpleString s), rest) := by
  have hstream : serialize (.simpleString s) ++ rest
      = (43 :: (s ++ [13])) ++ 10 :: rest := by
    simp [serialize]
  rw [hstream]
  unfold parsePartial
  rw [readUntilLF_line _ _ (by
    simp [List.all_eq_true] at h ⊢
    exact h)]
  simp only [List.cons_append, List.append_assoc, List.singleton_append]
  rw [if_neg (by simp)]
  simp only [List.drop_succ_cons, List.drop_zero, List.length_cons,
    List.length_append, List.length_singleton]
  norm_num
  rw [show s.length + 1 + 1 + 1 - 3 = s.length by omega]
  rw [show s ++ 13 :: [10] = s ++ [13, 10] from rfl, List.take_left]

theorem parsePartial_serialize_simpleError (s : Bytes)
    (h : s.all (· ≠ 10) = true) (rest : Bytes) :
    parsePartial (serialize (.simpleError s) ++ rest)
      = .ok (.complete (.simpleError s), rest) := by
  have hstream : serialize (.simpleError s) ++ rest
      = (45 :: (s ++ [13])) ++ 10 :: rest := by
    simp [serialize]
  rw [hstream]
  unfold parsePartial
  rw [readUntilLF_line _ _ (by
    simp [List.all_eq_true] at h ⊢
    exact h)]
  simp only [List.cons_append, List.append_assoc, List.singleton_append]
  rw [if_neg (by simp)]
  simp only [List.drop_succ_cons, List.drop_zero, List.length_cons,
    List.length_append, List.length_singleton]
  norm_num
  rw [show s.length + 1 + 1 + 1 - 3 = s.length by omega]
  rw [show s ++ 13 :: [10] = s ++ [13, 10] from rfl, List.take_left]

theorem parsePartial_serialize_integer (v : Int) (hlo : -(2 ^ 63 : Int) ≤ v)
    (hhi : v < 2 ^ 63) (rest : Bytes) :
    parsePartial (serialize (.integer v) ++ rest)
      = .ok (.complete (.integer v), rest) := by
  have hstream : serialize (.integer v) ++ rest
      = (58 :: (intToBytes v ++ [13])) ++ 10 :: rest := by
    simp [serialize]
  rw [hstream]
  unfold parsePartial
  rw [readUntilLF_line _ _ (by
    have hn := intToBytes_no_lf v
    simp [List.all_eq_true] at hn ⊢
    exact hn)]
  simp only [List.cons_append, List.append_assoc, List.singleton_append]
  rw [if_neg (by simp)]
  simp only [List.drop_succ_cons, List.drop_zero, List.length_cons,
    List.length_append, List.length_singleton]
  norm_num
  rw [show (intToBytes v).length + 1 + 1 + 1 - 3 = (intToBytes v).length
    by omega]
  rw [show intToBytes v ++ 13 :: [10] = intToBytes v ++ [13, 10] from rfl,
    List.take_left, parseI64_intToBytes hlo hhi]

theorem parsePartial_serialize_null (rest : Bytes) :
    parsePartial (serialize .null ++ rest) = .ok (.complete .null, rest) := by
  have hstream : serialize .null ++ rest = ([95, 13]) ++ 10 :: rest := by
    simp [serialize]
  rw [hstream]
  unfold parsePartial
  rw [readUntilLF_line _ _ (by norm_num)]
  norm_num

theorem parsePartial_serialize_boolean (b : Bool) (rest : Bytes) :
    parsePartial (serialize (.boolean b) ++ rest)
      = .ok (.complete (.boolean b), rest) := by
  cases b
  · have hstream : serialize (.boolean false) ++ rest
        = ([35, 102, 13]) ++ 10 :: rest := by
      simp [serialize]
    rw [hstream]
    unfold parsePartial
    rw [readUntilLF_line _ _ (by norm_num)]
    norm_num
  · have hstream : serialize (.boolean true) ++ rest
        = ([35, 116, 13]) ++ 10 :: rest := by
      simp [serialize]
    rw [hstream]
    unfold parsePartial
    rw [readUntilLF_line _ _ (by norm_num)]
    norm_num

theorem parsePartial_serialize_bulkString (s : Bytes)
    (h : s.all (· ≠ 10) = true) (rest : Bytes) :
    parsePartial (serialize (.bulkString s) ++ rest)
      = .ok (.complete (.bulkString s), rest) := by
  have hstream : serialize (.bulkString s) ++ rest
      = (36 :: (natToBytes s.length ++ [13])) ++ 10 :: ((s ++ [13]) ++ 10 :: rest) := by
    simp [serialize]
  rw [hstream]
  unfold parsePartial
  rw [readUntilLF_line _ _ (by
    have hn := natToBytes_no_lf s.length
    simp [List.all_eq_true] at hn ⊢
    exact hn)]
  simp only [List.cons_append, List.append_assoc, List.singleton_append]
  rw [if_neg (by simp)]
  norm_num
  rw [show s ++ 13 :: 10 :: rest = (s ++ [13]) ++ 10 :: rest by simp]
  rw [readUntilLF_line _ _ (by
    simp [List.all_eq_true] at h ⊢
    exact h)]
  simp only [List.append_assoc, List.singleton_append]
  rw [if_neg (by simp)]
  simp only [List.length_append, List.length_singleton]
  norm_num

theorem parsePartial_serialize_array (xs : List RedisItem)
    (hlen : xs.length < 2 ^ 32) (rest : Bytes) :
    parsePartial (serialize (.array xs) ++ rest)
      = .ok (.pending ⟨xs.length, []⟩, serializeList xs ++ rest) := by
  have hstream : serialize (.array xs) ++ rest
      = (42 :: (natToBytes xs.length ++ [13])) ++ 10 :: (serializeList xs ++ rest) := by
    simp [serialize]
  rw [hstream]
  unfold parsePartial
  rw [readUntilLF_line _ _ (by
    have hn := natToBytes_no_lf xs.length
    simp [List.all_eq_true] at hn ⊢
    exact hn)]
  simp only [List.cons_append, List.append_assoc, List.singleton_append]
  rw [if_neg (by simp)]
  simp only [List.drop_succ_cons, List.drop_zero, List.length_cons,
    List.length_append, List.length_singleton]
  norm_num
  rw [show (natToBytes xs.length).length + 1 + 1 + 1 - 3
      = (natToBytes xs.length).length by omega]
  rw [show natToBytes xs.length ++ 13 :: [10] = natToBytes xs.length ++ [13, 10]
    from rfl, List.take_left, parseU32_natToBytes hlen]

theorem parseLoop_done (stream : Bytes) (items : List RedisItem) :
    parseLoop stream (⟨0, items⟩ :: []) = .ok (.array items, stream) := by
  rw [parseLoop]
  simp

theorem parseLoop_fold (stream : Bytes) (items : List RedisItem)
    (parent : PState) (stack : List PState) (h : parent.remaining ≠ 0) :
    parseLoop stream (⟨0, items⟩ :: parent :: stack)
      = parseLoop stream
          (⟨parent.remaining - 1, parent.items ++ [.array items]⟩ :: stack) := by
  rw [parseLoop]
  simp [h]

theorem parseLoop_step_complete (stream stream' : Bytes) (st : PState)
    (stack : List PState) (v : RedisItem) (hrem : st.remaining ≠ 0)
    (hp : parsePartial stream = .ok (.complete v, stream')) :
    parseLoop stream (st :: stack)
      = parseLoop stream' (⟨st.remaining - 1, st.items ++ [v]⟩ :: stack) := by
  rw [parseLoop]
  simp only [hrem, if_false]
  split
  · next heq => rw [hp] at heq; exact absurd heq (by simp)
  · next ns s' heq => rw [hp] at heq; exact absurd heq (by simp)
  · next v2 s' heq =>
    rw [hp] at heq
    injection heq with h1
    injection h1 with h2 h3
    injection h2 with h4
    subst h4 h3
    rfl

theorem parseLoop_step_pending (stream stream' : Bytes) (st ns : PState)
    (stack : List PState) (hrem : st.remaining ≠ 0)
    (hp : parsePartial stream = .ok (.pending ns, stream')) :
    parseLoop stream (st :: stack)
      = parseLoop stream' (ns :: st :: stack) := by
  rw [parseLoop]
  simp only [hrem, if_false]
  split
  · next heq => rw [hp] at heq; exact absurd heq (by simp)
  · next ns2 s' heq =>
    rw [hp] at heq
    injection heq with h1
    injection h1 with h2 h3
    injection h2 with h4
    subst h4 h3
    rfl
  · next v2 s' heq => rw [hp] at heq; exact absurd heq (by simp)

mutual

theorem parseLoop_consume_item (v : RedisItem) (h : wfItem v = true)
    (r : Nat) (acc : List RedisItem) (stack : List PState) (rest : Bytes) :
    parseLoop (serialize v ++ rest) (⟨r + 1, acc⟩ :: stack)
      = parseLoop rest (⟨r, acc ++ [v]⟩ :: stack) := by
  cases v with
  | simpleString s =>
    rw [parseLoop_step_complete _ _ _ _ _ (by simp)
      (parsePartial_serialize_simpleString s (by simpa [wfItem] using h) rest)]
    simp
  | simpleError s =>
    rw [parseLoop_step_complete _ _ _ _ _ (by simp)
      (parsePartial_serialize_simpleError s (by simpa [wfItem] using h) rest)]
    simp
  | integer n =>
    have hb : -(2 ^ 63 : Int) ≤ n ∧ n < 2 ^ 63 := by
      simpa [wfItem] using h
    rw [parseLoop_step_complete _ _ _ _ _ (by simp)
      (parsePartial_serialize_integer n hb.1 hb.2 rest)]
    simp
  | bulkString s =>
    rw [parseLoop_step_complete _ _ _ _ _ (by simp)
      (parsePartial_serialize_bulkString s (by simpa [wfItem] using h) rest)]
    simp
  | null =>
    rw [parseLoop_step_complete _ _ _ _ _ (by simp)
      (parsePartial_serialize_null rest)]
    simp
  | boolean b =>
    rw [parseLoop_step_complete _ _ _ _ _ (by simp)
      (parsePartial_serialize_boolean b rest)]
    simp
  | array xs =>
    have hb : xs.length < 2 ^ 32 ∧ wfList xs = true := by
      simpa [wfItem] using h
    rw [parseLoop_step_pending _ _ _ _ _ (by simp)
      (parsePartial_serialize_array xs hb.1 rest)]
    rw [parseLoop_consume_list xs hb.2 [] (⟨r + 1, acc⟩ :: stack) rest]
    rw [show parseLoop rest (⟨0, [] ++ xs⟩ :: ⟨r + 1, acc⟩ :: stack)
        = parseLoop rest (⟨0, xs⟩ :: ⟨r + 1, acc⟩ :: stack) by simp]
    rw [parseLoop_fold rest xs ⟨r + 1, acc⟩ stack (by simp)]
    simp

theorem parseLoop_consume_list (vs : List RedisItem) (h : wfList vs = true)
    (acc : List RedisItem) (stack : List PState) (rest : Bytes) :
    parseLoop (serializeList vs ++ rest) (⟨vs.length, acc⟩ :: stack)
      = parseLoop rest (⟨0, acc ++ vs⟩ :: stack) := by
  match vs with
  | [] => simp [serializeList]
  | v :: tl =>
    have hb : wfItem v = true ∧ wfList tl = true := by
      simpa [wfList] using h
    rw [show serializeList (v :: tl) ++ rest
        = serialize v ++ (serializeList tl ++ rest) by simp [serializeList]]
    rw [show (v :: tl).length = tl.length + 1 by simp]
    rw [parseLoop_consume_item v hb.1 tl.length acc stack
      (serializeList tl ++ rest)]
    rw [parseLoop_consume_list tl hb.2 (acc ++ [v]) stack rest]
    simp

end

theorem parse_serialize_of_wf (v : RedisItem) (h : wfItem v = true) :
    parse (serialize v) = .ok (v, []) := by
  have hrw : serialize v = serialize v ++ [] := by simp
  cases v with
  | array xs =>
    have hb : xs.length < 2 ^ 32 ∧ wfList xs = true := by
      simpa [wfItem] using h
    unfold parse
    rw [hrw, parsePartial_serialize_array xs hb.1 []]
    have hcl := parseLoop_consume_list xs hb.2 [] [] []
    simp only [List.nil_append] at hcl
    dsimp only
    rw [hcl, parseLoop_done]
  | simpleString s =>
    unfold parse
    rw [hrw, parsePartial_serialize_simpleString s (by simpa [wfItem] using h) []]
  | simpleError s =>
    unfold parse
    rw [hrw, parsePartial_serialize_simpleError s (by simpa [wfItem] using h) []]
  | integer n =>
    have hb : -(2 ^ 63 : Int) ≤ n ∧ n < 2 ^ 63 := by
      simpa [wfItem] using h
    unfold parse
    rw [hrw, parsePartial_serialize_integer n hb.1 hb.2 []]
  | bulkString s =>
    unfold parse
    rw [hrw, parsePartial_serialize_bulkString s (by simpa [wfItem] using h) []]
  | null =>
    unfold parse
    rw [hrw, parsePartial_serialize_null []]
  | boolean b =>
    unfold parse
    rw [hrw, parsePartial_serialize_boolean b []]

/-! ## Boolean lines: the parser looks only at the second byte -/

theorem parse_hash_t (mid : Bytes) (h : mid.all (· ≠ 10) = true) :
    parse (35 :: 116 :: (mid ++ [10])) = .ok (.boolean true, []) := by
  unfold parse parsePartial
  rw [show (35 :: 116 :: (mid ++ [10]) : Bytes) = (35 :: 116 :: mid) ++ 10 :: []
    by simp]
  rw [readUntilLF_line _ _ (by
    simp [List.all_eq_true] at h ⊢
    exact h)]
  norm_num
  rw [if_neg (by omega)]

theorem parse_hash_f (mid : Bytes) (h : mid.all (· ≠ 10) = true) :
    parse (35 :: 102 :: (mid ++ [10])) = .ok (.boolean false, []) := by
  unfold parse parsePartial
  rw [show (35 :: 102 :: (mid ++ [10]) : Bytes) = (35 :: 102 :: mid) ++ 10 :: []
    by simp]
  rw [readUntilLF_line _ _ (by
    simp [List.all_eq_true] at h ⊢
    exact h)]
  norm_num
  rw [if_neg (by omega)]

theorem parse_hash_other (b : Nat) (mid : Bytes) (hb10 : b ≠ 10)
    (hbt : b ≠ 116) (hbf : b ≠ 102) (h : mid.all (· ≠ 10) = true) :
    parse (35 :: b :: (mid ++ [10])) = .error .invalid := by
  unfold parse parsePartial
  rw [show (35 :: b :: (mid ++ [10]) : Bytes) = (35 :: b :: mid) ++ 10 :: []
    by simp]
  rw [readUntilLF_line _ _ (by
    simp [List.all_eq_true] at h ⊢
    exact ⟨hb10, h⟩)]
  simp [hbt, hbf]
  rw [if_neg (by omega)]

/-! ## The server (`src/server/src/main.rs`, `src/src/expire.rs`)

`HashMap`s are modelled as association lists with unique keys (first
binding wins); `BinaryHeap<Reverse<Expiry>>` is modelled as the list of its
elements in insertion order, with peek/pop acting on an element of minimal
deadline (ties are implementation-defined in the source, resolved here to
the first such element).  The single-slot `Waker` is a scheduling callback
with no effect on the shared state and is not modelled; the `updated` flag
it accompanies is.  `Instant` is a `Nat`. -/

/-- `HashMap::get` on the association-list model. -/
def kvLookup {κ α : Type} [DecidableEq κ] (k : κ) : List (κ × α) → Option α
  | [] => none
  | (k2, v) :: rest => if k2 = k then some v else kvLookup k rest

/-- `HashMap::insert`: replace the binding of `k`, or add one. -/
def kvInsert {κ α : Type} [DecidableEq κ] (k : κ) (v : α) :
    List (κ × α) → List (κ × α)
  | [] => [(k, v)]
  | (k2, v2) :: rest =>
    if k2 = k then (k, v) :: rest else (k2, v2) :: kvInsert k v rest

/-- `HashMap::remove`. -/
def kvRemove {κ α : Type} [DecidableEq κ] (k : κ) :
    List (κ × α) → List (κ × α)
  | [] => []
  | (k2, v2) :: rest =>
    if k2 = k then rest else (k2, v2) :: kvRemove k rest

/-- In-place tag refresh: `let (_, tag) = items.get_mut(&key); *tag = t`. -/
def kvSetTag (k : Bytes) (t : Nat) :
    List (Bytes × RedisItem × Nat) → List (Bytes × RedisItem × Nat)
  | [] => []
  | (k2, v, t2) :: rest =>
    if k2 = k then (k2, v, t) :: rest else (k2, v, t2) :: kvSetTag k t rest

/-- An `Expiry` record: key, generation tag (`id`), deadline (`time`). -/
structure Expiry where
  key : Bytes
  id : Nat
  time : Nat

/-- The expiration index `Expire`: heap contents, tag-to-deadline map and
the `updated` flag (the waker slot is a scheduling callback, not state
observable by the claims; see the section comment). -/
structure Expire where
  items : List Expiry
  expiries : List (Nat × Nat)
  updated : Bool

/-- The deadline at the heap head: the minimum over all stored deadlines
(which is what `BinaryHeap<Reverse<Expiry>>::peek` exposes, whatever the
tie-breaking). -/
def heapPeekTime (l : List Expiry) : Option Nat := (l.map (·.time)).min?

/-- `BinaryHeap::pop` given that the minimal deadline is `t`: removes the
first element carrying it (tie-breaking is implementation-defined in the
source; the model fixes insertion order). -/
def heapPopFirst (t : Nat) : List Expiry → Option (Expiry × List Expiry)
  | [] => none
  | x :: xs =>
    if x.time = t then some (x, xs)
    else
      match heapPopFirst t xs with
      | some (ex, rest) => some (ex, x :: rest)
      | none => none

/-- `Expire::push`. -/
def expirePush (key : Bytes) (id : Nat) (time : Nat) (e : Expire) : Expire :=
  let prevExp := heapPeekTime e.items
  let e2 : Expire :=
    { e with items := e.items ++ [⟨key, id, time⟩],
             expiries := kvInsert id time e.expiries }
  if (match prevExp with | some p => decide (time < p) | none => true)
  then { e2 with updated := true } else e2

/-- `Expire::get_expiry`. -/
def expGet (id : Nat) (e : Expire) : Option Nat := kvLookup id e.expiries

/-- `Expire::try_pop`: pop the head if its deadline has passed, dropping
its tag from the map. -/
def tryPop (now : Nat) (e : Expire) : Option (Expiry × Expire) :=
  match heapPeekTime e.items with
  | none => none
  | some t =>
    if t ≤ now then
      match heapPopFirst t e.items with
      | some (ex, rest) =>
        some (ex, { e with items := rest,
                           expiries := kvRemove ex.id e.expiries })
      | none => none
    else none

/-- The shared server state (`State` in `src/server/src/main.rs`). -/
structure ServerState where
  stop : Bool
  items : List (Bytes × RedisItem × Nat)
  expire : Expire
  tagCounter : Nat

/-- `State::new()`. -/
def initState : ServerState := ⟨false, [], ⟨[], [], false⟩, 0⟩

/-- ASCII-lowercase one byte (`u8::make_ascii_lowercase`). -/
def lowerByte (b : Nat) : Nat := if 65 ≤ b ∧ b ≤ 90 then b + 32 else b

/-- `String::make_ascii_lowercase` on the byte model. -/
def lowerBytes (bs : Bytes) : Bytes := bs.map lowerByte

/-- `do_ping`. -/
def doPing (args : List RedisItem) (s : ServerState) :
    RedisItem × ServerState :=
  match args with
  | .bulkString v :: _ => (.bulkString v, s)
  | _ => (.simpleString (ascii "PONG"), s)

/-- `do_set`. -/
def doSet (args : List RedisItem) (s : ServerState) :
    RedisItem × ServerState :=
  match args with
  | .bulkString key :: .bulkString v :: _ =>
    (.simpleString (ascii "OK"),
     { s with items := kvInsert key (RedisItem.bulkString v, s.tagCounter) s.items,
              tagCounter := s.tagCounter + 1 })
  | _ => (.simpleError (ascii "invalid arguments"), s)

/-- `do_get`. -/
def doGet (args : List RedisItem) (s : ServerState) :
    RedisItem × ServerState :=
  match args with
  | .bulkString key :: _ =>
    match kvLookup key s.items with
    | some (RedisItem.bulkString v, _) => (.bulkString v, s)
    | some _ => (.simpleError (ascii "value is not a string"), s)
    | none => (.null, s)
  | _ => (.simpleError (ascii "invalid arguments"), s)

/-- The `while let` loop of `do_del`: each `BulkString` key is removed in
turn; a non-bulk argument aborts with an error, keeping the removals made
so far. -/
def doDelLoop (args : List RedisItem) (counter : Nat) (s : ServerState) :
    RedisItem × ServerState :=
  match args with
  | [] => (.integer (counter : Int), s)
  | .bulkString key :: rest =>
    match kvLookup key s.items with
    | some _ =>
      doDelLoop rest (counter + 1) { s with items := kvRemove key s.items }
    | none => doDelLoop rest counter { s with items := kvRemove key s.items }
  | _ :: _ => (.simpleError (ascii "invalid arguments"), s)

/-- `do_del`. -/
def doDel (args : List RedisItem) (s : ServerState) :
    RedisItem × ServerState :=
  doDelLoop args 0 s

/-- `do_expire` (`now` is the `Instant::now()` read in the handler). -/
def doExpire (now : Nat) (args : List RedisItem) (s : ServerState) :
    RedisItem × ServerState :=
  match args with
  | .bulkString key :: .bulkString val :: _ =>
    match parseU64 val with
    | none => (.simpleError (ascii "invalid arguments"), s)
    | some secs =>
      match kvLookup key s.items with
      | none => (.integer 0, s)
      | some (_, tag) =>
        let time := now + secs
        match expGet tag s.expire with
        | some _ =>
          (.integer 1,
           { s with items := kvSetTag key s.tagCounter s.items,
                    tagCounter := s.tagCounter + 1,
                    expire := expirePush key s.tagCounter time s.expire })
        | none =>
          (.integer 1, { s with expire := expirePush key tag time s.expire })
  | _ => (.simpleError (ascii "invalid arguments"), s)

/-- `do_persist`. -/
def doPersist (args : List RedisItem) (s : ServerState) :
    RedisItem × ServerState :=
  match args with
  | .bulkString key :: _ =>
    match kvLookup key s.items with
    | some _ =>
      (.integer 1,
       { s with items := kvSetTag key s.tagCounter s.items,
                tagCounter := s.tagCounter + 1 })
    | none => (.integer 0, s)
  | _ => (.simpleError (ascii "invalid arguments"), s)

/-- `do_rename`. -/
def doRename (args : List RedisItem) (s : ServerState) :
    RedisItem × ServerState :=
  match args with
  | .bulkString key :: .bulkString newKey :: _ =>
    match kvLookup key s.items with
    | some (v, tag) =>
      let s2 := { s with items := kvRemove key s.items }
      let s3 :=
        match expGet tag s2.expire with
        | some exp => { s2 with expire := expirePush newKey tag exp s2.expire }
        | none => s2
      (.simpleString (ascii "OK"),
       { s3 with items := kvInsert newKey (v, tag) s3.items })
    | none => (.simpleError (ascii "no such key"), s)
  | _ => (.simpleError (ascii "invalid arguments"), s)

/-- `do_rpush`: the tag counter is advanced before the entry lookup (also
on the `WRONGTYPE` path), and the freshly allocated tag is used only when
the key was absent. -/
def doRpush (args : List RedisItem) (s : ServerState) :
    RedisItem × ServerState :=
  match args with
  | .bulkString key :: rest =>
    let tag := s.tagCounter
    let s2 := { s with tagCounter := s.tagCounter + 1 }
    match kvLookup key s2.items with
    | none =>
      (.integer (rest.length : Int),
       { s2 with items := kvInsert key (RedisItem.array rest, tag) s2.items })
    | some (RedisItem.array cur, t2) =>
      (.integer ((cur ++ rest).length : Int),
       { s2 with items := kvInsert key (RedisItem.array (cur ++ rest), t2) s2.items })
    | some _ => (.simpleError (ascii "WRONGTYPE"), s2)
  | _ => (.simpleError (ascii "invalid arguments"), s)

/-- The count-argument analysis of `do_rpop`: `none` is the invalid case,
`some none` means pop a single element, `some (some n)` a count of `n`. -/
def rpopCount : List RedisItem → Option (Option Nat)
  | [] => some none
  | .integer v :: _ => if v < 0 then none else some (some v.toNat)
  | .bulkString v :: _ => (parseU64 v).map some
  | .simpleString v :: _ => (parseU64 v).map some
  | _ :: _ => none

/-- `do_rpop`.  The `assert!(items.len() > 0)` is modelled by returning
`none` (handler aborts); `none` likewise models the unreachable
`pop().unwrap()` on an empty vector. -/
def doRpop (args : List RedisItem) (s : ServerState) :
    Option (RedisItem × ServerState) :=
  match args with
  | .bulkString key :: rest =>
    match rpopCount rest with
    | none => some (.simpleError (ascii "invalid arguments"), s)
    | some cnt =>
      match kvLookup key s.items with
      | some (RedisItem.array items, tag) =>
        if items.length = 0 then none
        else
          match cnt with
          | none =>
            match items.getLast? with
            | none => none
            | some x =>
              let items2 := items.dropLast
              some (x,
                if items2.isEmpty
                then { s with items := kvRemove key s.items }
                else { s with items := kvInsert key (RedisItem.array items2, tag) s.items })
          | some n =>
            let res := items.reverse.take n
            let items2 := items.take (items.length - n)
            some (.array res,
              if items2.isEmpty
              then { s with items := kvRemove key s.items }
              else { s with items := kvInsert key (RedisItem.array items2, tag) s.items })
      | _ => some (.null, s)
  | _ => some (.simpleError (ascii "invalid arguments"), s)

/-- The command table of `handle_command`, after ASCII lowercasing. -/
def dispatch (c : Bytes) (now : Nat) (args : List RedisItem)
    (s : ServerState) : Option (RedisItem × ServerState) :=
  if c = ascii "ping" then some (doPing args s)
  else if c = ascii "set" then some (doSet args s)
  else if c = ascii "get" then some (doGet args s)
  else if c = ascii "del" then some (doDel args s)
  else if c = ascii "expire" then some (doExpire now args s)
  else if c = ascii "persist" then some (doPersist args s)
  else if c = ascii "rename" then some (doRename args s)
  else if c = ascii "rpush" then some (doRpush args s)
  else if c = ascii "rpop" then doRpop args s
  else some (.simpleError (ascii "unknown command"), s)

/-- `handle_command`: top frame must be an array whose first element is a
bulk or simple string naming the command. -/
def handleCommand (now : Nat) (cmd : RedisItem) (s : ServerState) :
    Option (RedisItem × ServerState) :=
  match cmd with
  | .array items =>
    match items with
    | .bulkString c :: args => dispatch (lowerBytes c) now args s
    | .simpleString c :: args => dispatch (lowerBytes c) now args s
    | _ => some (.simpleError (ascii "invalid command"), s)
  | _ => some (.simpleError (ascii "unknown command"), s)

/-- Length decrease of `try_pop`, for the worker loop's termination. -/
theorem heapPopFirst_length {t : Nat} :
    ∀ {l : List Expiry} {ex : Expiry} {rest : List Expiry},
      heapPopFirst t l = some (ex, rest) → rest.length + 1 = l.length := by
  intro l
  induction l with
  | nil => intro ex rest h; simp [heapPopFirst] at h
  | cons x xs ih =>
    intro ex rest h
    unfold heapPopFirst at h
    by_cases hx : x.time = t
    · simp only [hx, if_true] at h
      injection h with h1
      injection h1 with h2 h3
      subst h3
      simp
    · simp only [hx, if_false] at h
      match hrec : heapPopFirst t xs with
      | some (ex2, rest2) =>
        rw [hrec] at h
        injection h with h1
        injection h1 with h2 h3
        subst h3
        have := ih hrec
        simp [← this]
      | none => rw [hrec] at h; exact absurd h (by simp)

theorem tryPop_length {now : Nat} {e : Expire} {ex : Expiry} {e2 : Expire}
    (h : tryPop now e = some (ex, e2)) :
    e2.items.length + 1 = e.items.length := by
  unfold tryPop at h
  match hp : heapPeekTime e.items with
  | none => rw [hp] at h; exact absurd h (by simp)
  | some t =>
    rw [hp] at h
    by_cases ht : t ≤ now
    · simp only [ht, if_true] at h
      match hpop : heapPopFirst t e.items with
      | some (ex2, rest2) =>
        rw [hpop] at h
        injection h with h1
        injection h1 with h2 h3
        subst h3
        exact heapPopFirst_length hpop
      | none => rw [hpop] at h; exact absurd h (by simp)
    · simp [ht] at h

/-- The drain loop of `expire_worker` (step 3 of §4.5): pop expired
records; for each, remove the key when the record's tag is still the
entry's current tag. -/
def workerDrain (now : Nat) (s : ServerState) : ServerState :=
  match h : tryPop now s.expire with
  | none => s
  | some (exp, e2) =>
    workerDrain now
      (match kvLookup exp.key s.items with
       | some (_, id) =>
         if id = exp.id
         then { s with expire := e2, items := kvRemove exp.key s.items }
         else { s with expire := e2 }
       | none => { s with expire := e2 })
termination_by s.expire.items.length
decreasing_by
  have hlen := tryPop_length h
  split
  · split
    · dsimp only
      omega
    · dsimp only
      omega
  · dsimp only
    omega

/-- One wakeup of the expire worker at monotonic time `now`. -/
def workerWakeup (now : Nat) (s : ServerState) : ServerState :=
  workerDrain now s

/-- Iterated worker wakeups at the given times. -/
def workerRuns (nows : List Nat) (s : ServerState) : ServerState :=
  nows.foldl (fun st n => workerDrain n st) s

/-- An event in a server execution: one full command processed by a
connection worker, or one expire-worker wakeup. -/
inductive Step where
  | command (now : Nat) (cmd : RedisItem)
  | workerWake (now : Nat)

/-- Effect of one step on the shared state (`none`: handler panicked). -/
def runStep : Step → ServerState → Option ServerState
  | .command now cmd, s => (handleCommand now cmd s).map (·.2)
  | .workerWake now, s => some (workerDrain now s)

/-- A whole execution from a state. -/
def run : List Step → ServerState → Option ServerState
  | [], s => some s
  | st :: rest, s =>
    match runStep st s with
    | some s2 => run rest s2
    | none => none

/-! ## Association-list facts -/

theorem kvLookup_mem {κ α : Type} [DecidableEq κ] {k : κ} {v : α} :
    ∀ {l : List (κ × α)}, kvLookup k l = some v → (k, v) ∈ l := by
  intro l
  induction l with
  | nil => intro h; simp [kvLookup] at h
  | cons p rest ih =>
    intro h
    obtain ⟨k2, v2⟩ := p
    unfold kvLookup at h
    by_cases hk : k2 = k
    · subst hk
      simp only [if_true] at h
      injection h with h1
      subst h1
      exact List.mem_cons_self _ _
    · simp only [hk, if_false] at h
      exact List.mem_cons_of_mem _ (ih h)

theorem mem_kvInsert {κ α : Type} [DecidableEq κ] {k : κ} {v : α}
    {p : κ × α} : ∀ {l : List (κ × α)},
      p ∈ kvInsert k v l → p = (k, v) ∨ p ∈ l := by
  intro l
  induction l with
  | nil => intro h; simp [kvInsert] at h; exact Or.inl h
  | cons q rest ih =>
    intro h
    obtain ⟨k2, v2⟩ := q
    unfold kvInsert at h
    by_cases hk : k2 = k
    · subst hk
      simp only [if_true] at h
      rcases List.mem_cons.mp h with h1 | h1
      · exact Or.inl h1
      · exact Or.inr (List.mem_cons_of_mem _ h1)
    · simp only [hk, if_false] at h
      rcases List.mem_cons.mp h with h1 | h1
      · exact Or.inr (h1 ▸ List.mem_cons_self _ _)
      · rcases ih h1 with h2 | h2
        · exact Or.inl h2
        · exact Or.inr (List.mem_cons_of_mem _ h2)

theorem kvRemove_sublist {κ α : Type} [DecidableEq κ] (k : κ) :
    ∀ (l : List (κ × α)), List.Sublist (kvRemove k l) l := by
  intro l
  induction l with
  | nil => simp [kvRemove]
  | cons q rest ih =>
    obtain ⟨k2, v2⟩ := q
    unfold kvRemove
    by_cases hk : k2 = k
    · simp only [hk, if_true]
      exact List.sublist_cons_self _ _
    · simp only [hk, if_false]
      exact List.Sublist.cons₂ _ ih

theorem kvLookup_kvInsert_self {κ α : Type} [DecidableEq κ] (k : κ) (v : α) :
    ∀ (l : List (κ × α)), kvLookup k (kvInsert k v l) = some v := by
  intro l
  induction l with
  | nil => simp [kvInsert, kvLookup]
  | cons q rest ih =>
    obtain ⟨k2, v2⟩ := q
    unfold kvInsert
    by_cases hk : k2 = k
    · simp [hk, kvLookup]
    · simp only [hk, if_false]
      unfold kvLookup
      simp [hk, ih]

theorem kvLookup_kvInsert_ne {κ α : Type} [DecidableEq κ] {k k2 : κ}
    (v : α) (hne : k2 ≠ k) :
    ∀ (l : List (κ × α)), kvLookup k2 (kvInsert k v l) = kvLookup k2 l := by
  intro l
  have hne2 : k ≠ k2 := Ne.symm hne
  induction l with
  | nil => simp [kvInsert, kvLookup, hne2]
  | cons q rest ih =>
    obtain ⟨k3, v3⟩ := q
    by_cases hk : k3 = k
    · subst hk
      simp [kvInsert, kvLookup, hne2]
    · by_cases h3 : k3 = k2 <;> simp [kvInsert, kvLookup, hk, h3, ih, hne]

theorem kvLookup_kvRemove_ne {κ α : Type} [DecidableEq κ] {k k2 : κ}
    (hne : k2 ≠ k) :
    ∀ (l : List (κ × α)), kvLookup k2 (kvRemove k l) = kvLookup k2 l := by
  intro l
  have hne2 : k ≠ k2 := Ne.symm hne
  induction l with
  | nil => simp [kvRemove]
  | cons q rest ih =>
    obtain ⟨k3, v3⟩ := q
    by_cases hk : k3 = k
    · subst hk
      simp [kvRemove, kvLookup, hne2]
    · by_cases h3 : k3 = k2 <;> simp [kvRemove, kvLookup, hk, h3, ih, hne]

theorem kvLookup_kvSetTag_self {k : Bytes} {v : RedisItem} {t0 : Nat}
    (t : Nat) : ∀ {l : List (Bytes × RedisItem × Nat)},
      kvLookup k l = some (v, t0) →
      kvLookup k (kvSetTag k t l) = some (v, t) := by
  intro l
  induction l with
  | nil => intro h; simp [kvLookup] at h
  | cons q rest ih =>
    intro h
    obtain ⟨k2, v2, t2⟩ := q
    unfold kvLookup at h
    unfold kvSetTag
    by_cases hk : k2 = k
    · subst hk
      simp only [if_true] at h ⊢
      injection h with h1
      rw [show v2 = v by injection h1]
      unfold kvLookup
      simp
    · simp only [hk, if_false] at h ⊢
      unfold kvLookup
      simp [hk, ih h]

theorem kvLookup_kvSetTag_ne {k k2 : Bytes} (t : Nat) (hne : k2 ≠ k) :
    ∀ (l : List (Bytes × RedisItem × Nat)),
      kvLookup k2 (kvSetTag k t l) = kvLookup k2 l := by
  intro l
  induction l with
  | nil => simp [kvSetTag]
  | cons q rest ih =>
    obtain ⟨k3, v3, t3⟩ := q
    unfold kvSetTag
    by_cases hk : k3 = k
    · subst hk
      simp only [if_true]
      unfold kvLookup
      simp [Ne.symm hne]
    · simp only [hk, if_false]
      unfold kvLookup
      by_cases h3 : k3 = k2 <;> simp [h3, ih]

theorem mem_kvSetTag {k : Bytes} {t : Nat} {p : Bytes × RedisItem × Nat} :
    ∀ {l : List (Bytes × RedisItem × Nat)},
      p ∈ kvSetTag k t l → p.2.2 = t ∨ p ∈ l := by
  intro l
  induction l with
  | nil => intro h; simp [kvSetTag] at h
  | cons q rest ih =>
    intro h
    obtain ⟨k2, v2, t2⟩ := q
    unfold kvSetTag at h
    by_cases hk : k2 = k
    · simp only [hk, if_true] at h
      rcases List.mem_cons.mp h with h1 | h1
      · subst h1; exact Or.inl rfl
      · exact Or.inr (List.mem_cons_of_mem _ h1)
    · simp only [hk, if_false] at h
      rcases List.mem_cons.mp h with h1 | h1
      · exact Or.inr (h1 ▸ List.mem_cons_self _ _)
      · rcases ih h1 with h2 | h2
        · exact Or.inl h2
        · exact Or.inr (List.mem_cons_of_mem _ h2)

/-! ## Generation tags -/

/-- The tags of the keyspace entries, in entry order. -/
def tagsOf (l : List (Bytes × RedisItem × Nat)) : List Nat :=
  l.map (fun p => p.2.2)

theorem mem_tagsOf_kvInsert {x t : Nat} {k : Bytes} {v : RedisItem}
    {l : List (Bytes × RedisItem × Nat)}
    (hx : x ∈ tagsOf (kvInsert k (v, t) l)) : x = t ∨ x ∈ tagsOf l := by
  simp only [tagsOf, List.mem_map] at hx ⊢
  obtain ⟨p, hp, rfl⟩ := hx
  rcases mem_kvInsert hp with h1 | h1
  · subst h1; exact Or.inl rfl
  · exact Or.inr ⟨p, h1, rfl⟩

theorem mem_tagsOf_kvSetTag {x t : Nat} {k : Bytes}
    {l : List (Bytes × RedisItem × Nat)}
    (hx : x ∈ tagsOf (kvSetTag k t l)) : x = t ∨ x ∈ tagsOf l := by
  simp only [tagsOf, List.mem_map] at hx ⊢
  obtain ⟨p, hp, rfl⟩ := hx
  rcases mem_kvSetTag hp with h1 | h1
  · exact Or.inl h1
  · exact Or.inr ⟨p, h1, rfl⟩

theorem tagsOf_kvInsert_same {k : Bytes} {v0 v1 : RedisItem} {t : Nat} :
    ∀ {l : List (Bytes × RedisItem × Nat)},
      kvLookup k l = some (v0, t) →
      tagsOf (kvInsert k (v1, t) l) = tagsOf l := by
  intro l
  induction l with
  | nil => intro h; simp [kvLookup] at h
  | cons q rest ih =>
    intro h
    obtain ⟨k2, v2, t2⟩ := q
    by_cases hk : k2 = k
    · subst hk
      simp only [kvLookup, if_true] at h
      have ht : t2 = t := by injection h with h1; injection h1
      simp [kvInsert, tagsOf, ht]
    · simp only [kvLookup, hk, if_false] at h
      simp [kvInsert, tagsOf, hk] at ih ⊢
      exact ih h

theorem tagsOf_kvInsert_nodup {k : Bytes} {v : RedisItem} {t : Nat} :
    ∀ {l : List (Bytes × RedisItem × Nat)},
      (tagsOf l).Nodup → t ∉ tagsOf l →
      (tagsOf (kvInsert k (v, t) l)).Nodup := by
  intro l
  induction l with
  | nil => intro _ _; simp [kvInsert, tagsOf]
  | cons q rest ih =>
    intro hnd hni
    obtain ⟨k2, v2, t2⟩ := q
    simp only [tagsOf, List.map_cons, List.nodup_cons, List.mem_cons,
      not_or] at hnd hni
    by_cases hk : k2 = k
    · subst hk
      simp only [kvInsert, if_true]
      simp only [tagsOf, List.map_cons, List.nodup_cons]
      exact ⟨hni.2, hnd.2⟩
    · simp only [kvInsert, hk, if_false]
      simp only [tagsOf, List.map_cons, List.nodup_cons]
      constructor
      · intro hmem
        rcases mem_tagsOf_kvInsert hmem with h1 | h1
        · exact hni.1 h1.symm
        · exact hnd.1 (by simpa [tagsOf] using h1)
      · exact ih hnd.2 hni.2

theorem tagsOf_kvSetTag_nodup {k : Bytes} {t : Nat} :
    ∀ {l : List (Bytes × RedisItem × Nat)},
      (tagsOf l).Nodup → t ∉ tagsOf l →
      (tagsOf (kvSetTag k t l)).Nodup := by
  intro l
  induction l with
  | nil => intro _ _; simp [kvSetTag, tagsOf]
  | cons q rest ih =>
    intro hnd hni
    obtain ⟨k2, v2, t2⟩ := q
    simp only [tagsOf, List.map_cons, List.nodup_cons, List.mem_cons,
      not_or] at hnd hni
    by_cases hk : k2 = k
    · simp only [kvSetTag, hk, if_true]
      simp only [tagsOf, List.map_cons, List.nodup_cons]
      exact ⟨hni.2, hnd.2⟩
    · simp only [kvSetTag, hk, if_false]
      simp only [tagsOf, List.map_cons, List.nodup_cons]
      constructor
      · intro hmem
        rcases mem_tagsOf_kvSetTag hmem with h1 | h1
        · exact hni.1 h1.symm
        · exact hnd.1 (by simpa [tagsOf] using h1)
      · exact ih hnd.2 hni.2

theorem not_mem_tagsOf_kvRemove {k : Bytes} {v : RedisItem} {t : Nat} :
    ∀ {l : List (Bytes × RedisItem × Nat)},
      (tagsOf l).Nodup → kvLookup k l = some (v, t) →
      t ∉ tagsOf (kvRemove k l) := by
  intro l
  induction l with
  | nil => intro _ h; simp [kvLookup] at h
  | cons q rest ih =>
    intro hnd h
    obtain ⟨k2, v2, t2⟩ := q
    simp only [tagsOf, List.map_cons, List.nodup_cons] at hnd
    by_cases hk : k2 = k
    · subst hk
      simp only [kvLookup, if_true] at h
      have ht : t2 = t := by injection h with h1; injection h1
      simp only [kvRemove, if_true]
      rw [← ht]
      exact hnd.1
    · simp only [kvLookup, hk, if_false] at h
      simp only [kvRemove, hk, if_false, tagsOf, List.map_cons,
        List.mem_cons, not_or]
      constructor
      · intro ht2
        have hmem : t ∈ tagsOf rest := by
          simp only [tagsOf, List.mem_map]
          exact ⟨(k, v, t), kvLookup_mem h, rfl⟩
        rw [ht2] at hmem
        exact hnd.1 (by simpa [tagsOf] using hmem)
      · exact ih hnd.2 h

theorem tagsOf_sublist {l1 l2 : List (Bytes × RedisItem × Nat)}
    (h : List.Sublist l1 l2) : List.Sublist (tagsOf l1) (tagsOf l2) :=
  List.Sublist.map _ h

/-! ## Heap and worker facts -/

theorem heapPopFirst_spec {t : Nat} :
    ∀ {l : List Expiry} {ex : Expiry} {rest : List Expiry},
      heapPopFirst t l = some (ex, rest) →
      ex ∈ l ∧ ex.time = t ∧ List.Sublist rest l := by
  intro l
  induction l with
  | nil => intro ex rest h; simp [heapPopFirst] at h
  | cons x xs ih =>
    intro ex rest h
    unfold heapPopFirst at h
    by_cases hx : x.time = t
    · simp only [hx, if_true] at h
      injection h with h1
      injection h1 with h2 h3
      subst h2 h3
      exact ⟨List.mem_cons_self _ _, hx, List.sublist_cons_self _ _⟩
    · simp only [hx, if_false] at h
      match hrec : heapPopFirst t xs with
      | some (ex2, rest2) =>
        rw [hrec] at h
        injection h with h1
        injection h1 with h2 h3
        subst h2 h3
        obtain ⟨hm, htm, hs⟩ := ih hrec
        exact ⟨List.mem_cons_of_mem _ hm, htm, List.Sublist.cons₂ _ hs⟩
      | none => rw [hrec] at h; exact absurd h (by simp)

theorem tryPop_spec {now : Nat} {e : Expire} {ex : Expiry} {e2 : Expire}
    (h : tryPop now e = some (ex, e2)) :
    ex ∈ e.items ∧ ex.time ≤ now ∧ List.Sublist e2.items e.items := by
  unfold tryPop at h
  match hp : heapPeekTime e.items with
  | none => rw [hp] at h; exact absurd h (by simp)
  | some t =>
    rw [hp] at h
    by_cases ht : t ≤ now
    · simp only [ht, if_true] at h
      match hpop : heapPopFirst t e.items with
      | some (ex2, rest2) =>
        rw [hpop] at h
        injection h with h1
        injection h1 with h2 h3
        subst h2 h3
        obtain ⟨hm, htm, hs⟩ := heapPopFirst_spec hpop
        exact ⟨hm, htm ▸ ht, hs⟩
      | none => rw [hpop] at h; exact absurd h (by simp)
    · simp [ht] at h

theorem workerDrain_eq_none {now : Nat} {s : ServerState}
    (h : tryPop now s.expire = none) : workerDrain now s = s := by
  rw [workerDrain]
  split
  · rfl
  · next exp e2 heq => rw [h] at heq; exact absurd heq (by simp)

theorem workerDrain_eq_some {now : Nat} {s : ServerState} {exp : Expiry}
    {e2 : Expire} (h : tryPop now s.expire = some (exp, e2)) :
    workerDrain now s = workerDrain now
      (match kvLookup exp.key s.items with
       | some (_, id) =>
         if id = exp.id
         then { s with expire := e2, items := kvRemove exp.key s.items }
         else { s with expire := e2 }
       | none => { s with expire := e2 }) := by
  rw [workerDrain]
  split
  · next heq => rw [h] at heq; exact absurd heq (by simp)
  · next exp2 e22 heq =>
    rw [h] at heq
    injection heq with h1
    injection h1 with h2 h3
    subst h2 h3
    rfl

theorem workerDrain_tagCounter (now : Nat) (s : ServerState) :
    (workerDrain now s).tagCounter = s.tagCounter := by
  refine workerDrain.induct now
    (fun st => (workerDrain now st).tagCounter = st.tagCounter) ?_ ?_ s
  · intro st h
    rw [workerDrain_eq_none h]
  · intro st exp e2 h ih
    rw [workerDrain_eq_some h]
    simp only [dite_eq_ite] at ih
    rw [ih]
    split
    · split <;> rfl
    · rfl

theorem workerDrain_items_sublist (now : Nat) (s : ServerState) :
    List.Sublist (workerDrain now s).items s.items := by
  refine workerDrain.induct now
    (fun st => List.Sublist (workerDrain now st).items st.items) ?_ ?_ s
  · intro st h
    rw [workerDrain_eq_none h]
  · intro st exp e2 h ih
    rw [workerDrain_eq_some h]
    simp only [dite_eq_ite] at ih
    refine List.Sublist.trans ih ?_
    split
    · split
      · exact kvRemove_sublist _ _
      · rfl
    · rfl

theorem workerDrain_expire_sublist (now : Nat) (s : ServerState) :
    List.Sublist (workerDrain now s).expire.items s.expire.items := by
  refine workerDrain.induct now
    (fun st => List.Sublist (workerDrain now st).expire.items st.expire.items)
    ?_ ?_ s
  · intro st h
    rw [workerDrain_eq_none h]
  · intro st exp e2 h ih
    rw [workerDrain_eq_some h]
    simp only [dite_eq_ite] at ih
    have hsub := (tryPop_spec h).2.2
    refine List.Sublist.trans ih ?_
    split
    · split <;> exact hsub
    · exact hsub

theorem workerDrain_entry_preserved (now : Nat) (s : ServerState)
    (k : Bytes) (v : RedisItem) (t : Nat)
    (hk : kvLookup k s.items = some (v, t))
    (hno : ∀ ex ∈ s.expire.items, ex.id ≠ t) :
    kvLookup k (workerDrain now s).items = some (v, t) := by
  refine workerDrain.induct now
    (fun st => kvLookup k st.items = some (v, t) →
      (∀ ex ∈ st.expire.items, ex.id ≠ t) →
      kvLookup k (workerDrain now st).items = some (v, t)) ?_ ?_ s hk hno
  · intro st h hk2 hno2
    rw [workerDrain_eq_none h]
    exact hk2
  · intro st exp e2 h ih hk2 hno2
    rw [workerDrain_eq_some h]
    simp only [dite_eq_ite] at ih
    obtain ⟨hmem, htime, hsub⟩ := tryPop_spec h
    have hno3 : ∀ ex ∈ e2.items, ex.id ≠ t := fun ex hex =>
      hno2 ex (hsub.mem hex)
    apply ih
    · split
      · next v2 id heq =>
        split
        · next hid =>
          by_cases hkey : exp.key = k
          · exfalso
            rw [hkey, hk2] at heq
            have hidt : id = t := by
              injection heq with h1
              injection h1 with hv ht2
              exact ht2.symm
            exact hno2 exp hmem (by rw [← hid, hidt])
          · rw [kvLookup_kvRemove_ne (Ne.symm hkey)]
            exact hk2
        · exact hk2
      · exact hk2
    · split
      · split <;> exact hno3
      · exact hno3

theorem workerDrain_removed_witness (now : Nat) (s : ServerState)
    (k : Bytes) (v : RedisItem) (t : Nat)
    (hk : kvLookup k s.items = some (v, t))
    (hgone : kvLookup k (workerDrain now s).items = none) :
    ∃ ex, ex ∈ s.expire.items ∧ ex.key = k ∧ ex.id = t ∧ ex.time ≤ now := by
  refine workerDrain.induct now
    (fun st => kvLookup k st.items = some (v, t) →
      kvLookup k (workerDrain now st).items = none →
      ∃ ex, ex ∈ st.expire.items ∧ ex.key = k ∧ ex.id = t ∧ ex.time ≤ now)
    ?_ ?_ s hk hgone
  · intro st h hk2 hgone2
    rw [workerDrain_eq_none h, hk2] at hgone2
    exact absurd hgone2 (by simp)
  · intro st exp e2 h ih hk2 hgone2
    rw [workerDrain_eq_some h] at hgone2
    simp only [dite_eq_ite] at ih
    obtain ⟨hmem, htime, hsub⟩ := tryPop_spec h
    revert ih hgone2
    split
    · next v2 id heq =>
      split
      · next hid =>
        intro ih hgone2
        by_cases hkey : exp.key = k
        · refine ⟨exp, hmem, hkey, ?_, htime⟩
          rw [hkey, hk2] at heq
          have hidt : id = t := by
              injection heq with h1
              injection h1 with hv ht2
              exact ht2.symm
          rw [← hid, hidt]
        · have hk3 : kvLookup k (kvRemove exp.key st.items) = some (v, t) := by
            rw [kvLookup_kvRemove_ne (Ne.symm hkey)]
            exact hk2
          obtain ⟨ex, hex, hexk, hexi, hext⟩ := ih hk3 hgone2
          exact ⟨ex, hsub.mem hex, hexk, hexi, hext⟩
      · intro ih hgone2
        obtain ⟨ex, hex, hexk, hexi, hext⟩ := ih hk2 hgone2
        exact ⟨ex, hsub.mem hex, hexk, hexi, hext⟩
    · intro ih hgone2
      obtain ⟨ex, hex, hexk, hexi, hext⟩ := ih hk2 hgone2
      exact ⟨ex, hsub.mem hex, hexk, hexi, hext⟩

/-! ## The state invariant: distinct live tags, tags below the counter -/

/-- No two live keyspace entries share a generation tag (spec I2). -/
def TagsDistinct (s : ServerState) : Prop := (tagsOf s.items).Nodup

/-- Every live tag was allocated before the current counter value. -/
def TagsBound (s : ServerState) : Prop :=
  ∀ p ∈ s.items, p.2.2 < s.tagCounter

/-- Every tag recorded in the expiration heap predates the counter. -/
def HeapBound (s : ServerState) : Prop :=
  ∀ ex ∈ s.expire.items, ex.id < s.tagCounter

/-- The reachable-state invariant maintained by every handler and by the
expire worker. -/
def Inv (s : ServerState) : Prop := TagsDistinct s ∧ TagsBound s ∧ HeapBound s

theorem tags_bound_not_mem {l : List (Bytes × RedisItem × Nat)} {c : Nat}
    (h : ∀ p ∈ l, p.2.2 < c) : c ∉ tagsOf l := by
  intro hmem
  simp only [tagsOf, List.mem_map] at hmem
  obtain ⟨p, hp, hpc⟩ := hmem
  exact absurd (hpc ▸ h p hp) (lt_irrefl c)

theorem expirePush_items (k : Bytes) (i time : Nat) (e : Expire) :
    (expirePush k i time e).items = e.items ++ [⟨k, i, time⟩] := by
  unfold expirePush
  dsimp only
  split <;> rfl

theorem expirePush_expiries (k : Bytes) (i time : Nat) (e : Expire) :
    (expirePush k i time e).expiries = kvInsert i time e.expiries := by
  unfold expirePush
  dsimp only
  split <;> rfl

theorem workerDrain_inv (now : Nat) (s : ServerState) (h : Inv s) :
    Inv (workerDrain now s) := by
  obtain ⟨h1, h2, h3⟩ := h
  refine ⟨?_, ?_, ?_⟩
  · exact h1.sublist (tagsOf_sublist (workerDrain_items_sublist now s))
  · intro p hp
    rw [workerDrain_tagCounter]
    exact h2 p ((workerDrain_items_sublist now s).subset hp)
  · intro ex hex
    rw [workerDrain_tagCounter]
    exact h3 ex ((workerDrain_expire_sublist now s).subset hex)

theorem workerRuns_entry_preserved (nows : List Nat) (s : ServerState)
    (k : Bytes) (v : RedisItem) (t : Nat)
    (hk : kvLookup k s.items = some (v, t))
    (hno : ∀ ex ∈ s.expire.items, ex.id ≠ t) :
    kvLookup k (workerRuns nows s).items = some (v, t) := by
  induction nows generalizing s with
  | nil => exact hk
  | cons n tl ih =>
    show kvLookup k (workerRuns tl (workerDrain n s)).items = some (v, t)
    refine ih (workerDrain n s)
      (workerDrain_entry_preserved n s k v t hk hno) ?_
    intro ex hex
    exact hno ex ((workerDrain_expire_sublist n s).subset hex)

/-! ## Invariant preservation by the command handlers -/

theorem insert_fresh_inv {s : ServerState} {k : Bytes} {v : RedisItem}
    (h : Inv s) :
    Inv { s with items := kvInsert k (v, s.tagCounter) s.items,
                 tagCounter := s.tagCounter + 1 } := by
  obtain ⟨h1, h2, h3⟩ := h
  refine ⟨?_, ?_, ?_⟩
  · exact tagsOf_kvInsert_nodup h1 (tags_bound_not_mem h2)
  · intro p hp
    rcases mem_kvInsert hp with h4 | h4
    · subst h4; simp
    · have := h2 p h4
      simp only
      omega
  · intro ex hex
    have := h3 ex hex
    simp only
    omega

theorem setTag_fresh_inv {s : ServerState} {k : Bytes} (h : Inv s) :
    Inv { s with items := kvSetTag k s.tagCounter s.items,
                 tagCounter := s.tagCounter + 1 } := by
  obtain ⟨h1, h2, h3⟩ := h
  refine ⟨?_, ?_, ?_⟩
  · exact tagsOf_kvSetTag_nodup h1 (tags_bound_not_mem h2)
  · intro p hp
    rcases mem_kvSetTag hp with h4 | h4
    · simp only
      omega
    · have := h2 p h4
      simp only
      omega
  · intro ex hex
    have := h3 ex hex
    simp only
    omega

theorem setTag_fresh_push_inv {s : ServerState} {k k2 : Bytes} {time : Nat}
    (h : Inv s) :
    Inv { s with items := kvSetTag k s.tagCounter s.items,
                 tagCounter := s.tagCounter + 1,
                 expire := expirePush k2 s.tagCounter time s.expire } := by
  obtain ⟨h1, h2, h3⟩ := @setTag_fresh_inv s k h
  refine ⟨h1, h2, ?_⟩
  intro ex hex
  simp only [expirePush_items] at hex
  rcases List.mem_append.mp hex with h4 | h4
  · exact h3 ex h4
  · simp only [List.mem_singleton] at h4
    subst h4
    simp

theorem push_old_inv {s : ServerState} {k : Bytes} {t time : Nat}
    (h : Inv s) (ht : t < s.tagCounter) :
    Inv { s with expire := expirePush k t time s.expire } := by
  obtain ⟨h1, h2, h3⟩ := h
  refine ⟨h1, h2, ?_⟩
  intro ex hex
  simp only [expirePush_items] at hex
  rcases List.mem_append.mp hex with h4 | h4
  · exact h3 ex h4
  · simp only [List.mem_singleton] at h4
    subst h4
    exact ht

theorem remove_inv {s : ServerState} {k : Bytes} (h : Inv s) :
    Inv { s with items := kvRemove k s.items } := by
  obtain ⟨h1, h2, h3⟩ := h
  exact ⟨h1.sublist (tagsOf_sublist (kvRemove_sublist k s.items)),
    fun p hp => h2 p ((kvRemove_sublist k s.items).subset hp), h3⟩

theorem insert_same_tag_inv {s : ServerState} {k : Bytes}
    {v0 v1 : RedisItem} {t : Nat} (h : Inv s)
    (hk : kvLookup k s.items = some (v0, t)) :
    Inv { s with items := kvInsert k (v1, t) s.items } := by
  obtain ⟨h1, h2, h3⟩ := h
  refine ⟨?_, ?_, h3⟩
  · unfold TagsDistinct
    simp only
    rw [tagsOf_kvInsert_same hk]
    exact h1
  · intro p hp
    rcases mem_kvInsert hp with h4 | h4
    · subst h4
      exact h2 (k, v0, t) (kvLookup_mem hk)
    · exact h2 p h4

theorem counter_bump_inv {s : ServerState} (h : Inv s) :
    Inv { s with tagCounter := s.tagCounter + 1 } := by
  obtain ⟨h1, h2, h3⟩ := h
  refine ⟨h1, ?_, ?_⟩
  · intro p hp
    have := h2 p hp
    simp only
    omega
  · intro ex hex
    have := h3 ex hex
    simp only
    omega

theorem insert_unused_tag_inv {s : ServerState} {k : Bytes} {v : RedisItem}
    {t : Nat} (h : Inv s) (ht : t ∉ tagsOf s.items) (htc : t < s.tagCounter) :
    Inv { s with items := kvInsert k (v, t) s.items } := by
  obtain ⟨h1, h2, h3⟩ := h
  refine ⟨tagsOf_kvInsert_nodup h1 ht, ?_, h3⟩
  intro p hp
  rcases mem_kvInsert hp with h4 | h4
  · subst h4; exact htc
  · exact h2 p h4

theorem doPing_state (args : List RedisItem) (s : ServerState) :
    (doPing args s).2 = s := by
  unfold doPing
  split <;> rfl

theorem doGet_state (args : List RedisItem) (s : ServerState) :
    (doGet args s).2 = s := by
  unfold doGet
  split
  · split <;> rfl
  · rfl

theorem doSet_inv (args : List RedisItem) (s : ServerState) (h : Inv s) :
    Inv (doSet args s).2 := by
  unfold doSet
  split
  · exact insert_fresh_inv h
  · exact h

theorem doDelLoop_inv (args : List RedisItem) :
    ∀ (counter : Nat) (s : ServerState), Inv s →
      Inv (doDelLoop args counter s).2 := by
  induction args with
  | nil => intro counter s h; exact h
  | cons a rest ih =>
    intro counter s h
    unfold doDelLoop
    match a with
    | .bulkString key =>
      simp only
      split
      · exact ih _ _ (remove_inv h)
      · exact ih _ _ (remove_inv h)
    | .simpleString v => exact h
    | .simpleError v => exact h
    | .integer v => exact h
    | .array v => exact h
    | .null => exact h
    | .boolean v => exact h

theorem doDel_inv (args : List RedisItem) (s : ServerState) (h : Inv s) :
    Inv (doDel args s).2 := doDelLoop_inv args 0 s h

theorem doExpire_inv (now : Nat) (args : List RedisItem) (s : ServerState)
    (h : Inv s) : Inv (doExpire now args s).2 := by
  unfold doExpire
  split
  · next key val rest =>
    split
    · exact h
    · next secs hsecs =>
      split
      · exact h
      all_goals
        (rename_i hlook
         dsimp only
         split
         · exact setTag_fresh_push_inv h
         · exact push_old_inv h (h.2.1 _ (kvLookup_mem hlook)))
  · exact h

theorem doPersist_inv (args : List RedisItem) (s : ServerState)
    (h : Inv s) : Inv (doPersist args s).2 := by
  unfold doPersist
  split
  · split
    · exact setTag_fresh_inv h
    · exact h
  · exact h

theorem doRename_inv (args : List RedisItem) (s : ServerState)
    (h : Inv s) : Inv (doRename args s).2 := by
  unfold doRename
  split
  · next key newKey rest =>
    split
    · next v tag hlook =>
      have htag : tag < s.tagCounter := h.2.1 _ (kvLookup_mem hlook)
      have hnot : tag ∉ tagsOf (kvRemove key s.items) :=
        not_mem_tagsOf_kvRemove h.1 hlook
      dsimp only
      split
      · next d hd =>
        refine insert_unused_tag_inv ?_ hnot htag
        exact push_old_inv (remove_inv h) htag
      · refine insert_unused_tag_inv ?_ hnot htag
        exact remove_inv h
    · exact h
  · exact h

theorem doRpush_inv (args : List RedisItem) (s : ServerState)
    (h : Inv s) : Inv (doRpush args s).2 := by
  unfold doRpush
  split
  · next key rest =>
    dsimp only
    split
    · exact insert_fresh_inv h
    · next cur t2 hlook =>
      exact insert_same_tag_inv (counter_bump_inv h) hlook
    · exact counter_bump_inv h
  · exact h

theorem doRpop_inv (args : List RedisItem) (s : ServerState)
    (r : RedisItem) (s2 : ServerState)
    (hr : doRpop args s = some (r, s2)) (h : Inv s) : Inv s2 := by
  unfold doRpop at hr
  split at hr
  · next key rest =>
    split at hr
    · injection hr with h1
      rw [← (by injection h1 : s = s2)]
      exact h
    · split at hr
      · next items tag hlook =>
        split at hr
        · exact absurd hr (by simp)
        · split at hr
          · split at hr
            · exact absurd hr (by simp)
            · next x hlast =>
              injection hr with h1
              injection h1 with hx hs
              rw [← hs]
              split
              · exact remove_inv h
              · exact insert_same_tag_inv h hlook
          · next n =>
            injection hr with h1
            injection h1 with hx hs
            rw [← hs]
            split
            · exact remove_inv h
            · exact insert_same_tag_inv h hlook
      · injection hr with h1
        rw [← (by injection h1 : s = s2)]
        exact h
  · injection hr with h1
    rw [← (by injection h1 : s = s2)]
    exact h

theorem dispatch_inv (c : Bytes) (now : Nat) (args : List RedisItem)
    (s : ServerState) (r : RedisItem) (s2 : ServerState)
    (hr : dispatch c now args s = some (r, s2)) (h : Inv s) : Inv s2 := by
  unfold dispatch at hr
  split_ifs at hr
  all_goals
    first
    | (injection hr with h1
       first
       | (rw [← (by rw [h1] : (doPing args s).2 = s2)]
          rw [doPing_state]
          exact h)
       | (rw [← (by rw [h1] : (doSet args s).2 = s2)]
          exact doSet_inv args s h)
       | (rw [← (by rw [h1] : (doGet args s).2 = s2)]
          rw [doGet_state]
          exact h)
       | (rw [← (by rw [h1] : (doDel args s).2 = s2)]
          exact doDel_inv args s h)
       | (rw [← (by rw [h1] : (doExpire now args s).2 = s2)]
          exact doExpire_inv now args s h)
       | (rw [← (by rw [h1] : (doPersist args s).2 = s2)]
          exact doPersist_inv args s h)
       | (rw [← (by rw [h1] : (doRename args s).2 = s2)]
          exact doRename_inv args s h)
       | (rw [← (by rw [h1] : (doRpush args s).2 = s2)]
          exact doRpush_inv args s h)
       | (rw [← (by injection h1 : s = s2)]
          exact h))
    | exact doRpop_inv args s r s2 hr h

theorem handleCommand_inv (now : Nat) (cmd : RedisItem) (s : ServerState)
    (r : RedisItem) (s2 : ServerState)
    (hr : handleCommand now cmd s = some (r, s2)) (h : Inv s) : Inv s2 := by
  unfold handleCommand at hr
  split at hr
  · split at hr
    · exact dispatch_inv _ now _ s r s2 hr h
    · exact dispatch_inv _ now _ s r s2 hr h
    · injection hr with h1
      rw [← (by injection h1 : s = s2)]
      exact h
  · injection hr with h1
    rw [← (by injection h1 : s = s2)]
    exact h

theorem runStep_inv (st : Step) (s s2 : ServerState)
    (hr : runStep st s = some s2) (h : Inv s) : Inv s2 := by
  match st with
  | .command now cmd =>
    simp only [runStep, Option.map_eq_some'] at hr
    obtain ⟨⟨r, s3⟩, hrc, hs⟩ := hr
    subst hs
    exact handleCommand_inv now cmd s r s3 hrc h
  | .workerWake now =>
    simp only [runStep] at hr
    injection hr with h1
    rw [← h1]
    exact workerDrain_inv now s h

theorem initState_inv : Inv initState := by
  refine ⟨?_, ?_, ?_⟩ <;> simp [initState, TagsDistinct, TagsBound,
    HeapBound, tagsOf]

theorem run_inv (steps : List Step) :
    ∀ (s s2 : ServerState), run steps s = some s2 → Inv s → Inv s2 := by
  induction steps with
  | nil =>
    intro s s2 hr h
    injection hr with h1
    rw [← h1]
    exact h
  | cons st rest ih =>
    intro s s2 hr h
    unfold run at hr
    split at hr
    · next s3 hst => exact ih s3 s2 hr (runStep_inv st s s3 hst h)
    · exact absurd hr (by simp)

/-! ## The claims -/

/-- C1, counterexample: the round-trip claim fails as stated.  For the
bulk string with bytes "a\nb", serializing and parsing yields the empty
bulk string (the parser reads the payload with a line-delimited read and
positionally strips two bytes), not the original value. -/
theorem roundtrip_fails_on_lf_bulkstring :
    parse (serialize (.bulkString [97, 10, 98]))
      = .ok (.bulkString [], [98, 13, 10]) ∧
    RedisItem.bulkString [] ≠ RedisItem.bulkString [97, 10, 98] := by
  refine ⟨rfl, ?_⟩
  intro hcontra
  injection hcontra with h1
  exact absurd h1 (by decide)

/-- C1 (amended): serializing a `RedisItem` and parsing the produced bytes
yields the original value, provided every string payload in it is free of
LF bytes, every integer is in the `i64` range (carried by the Rust type),
and every array length fits the `u32` count parse.  The LF restriction is
forced by the parser's line-delimited payload reads (spec Q1). -/
theorem serialize_parse_roundtrip (v : RedisItem) (h : wfItem v = true) :
    parse (serialize v) = .ok (v, []) :=
  parse_serialize_of_wf v h

theorem serialize_parse_roundtrip_witness :
    wfItem (.array [.integer (-42), .bulkString (ascii "hi"), .null]) = true ∧
    parse (serialize (.array [.integer (-42), .bulkString (ascii "hi"), .null]))
      = .ok (.array [.integer (-42), .bulkString (ascii "hi"), .null], []) :=
  have h : wfItem (.array [.integer (-42), .bulkString (ascii "hi"), .null])
      = true := by rfl
  ⟨h, serialize_parse_roundtrip _ h⟩

/-- C2: the claim is right and the code violates it.  `RPUSH k` with no
value arguments is accepted by `do_rpush` and leaves a zero-length Array
entry in the keyspace, and the following `RPOP k` reaches the assertion
`items.len() > 0` with an empty vector (modelled as the `none` outcome:
the handler panics). -/
theorem rpush_no_values_breaks_empty_invariant :
    (run [.command 0 (.array [.bulkString (ascii "RPUSH"),
        .bulkString (ascii "k")])] initState).map
        (fun s => kvLookup (ascii "k") s.items)
      = some (some (.array [], 0)) ∧
    run [.command 0 (.array [.bulkString (ascii "RPUSH"),
        .bulkString (ascii "k")]),
        .command 1 (.array [.bulkString (ascii "RPOP"),
        .bulkString (ascii "k")])] initState = none :=
  ⟨rfl, rfl⟩

/-- C5: the expire worker never removes a key before the deadline of the
corresponding Expiry record: `try_pop` returns a record only when its
deadline is at or before the current monotonic time, and a key removed
during a worker drain always has a matching record (same key and tag)
whose deadline has passed. -/
theorem no_removal_before_deadline :
    (∀ (now : Nat) (e : Expire) (ex : Expiry) (e2 : Expire),
      tryPop now e = some (ex, e2) → ex.time ≤ now) ∧
    (∀ (now : Nat) (s : ServerState) (k : Bytes) (v : RedisItem) (t : Nat),
      kvLookup k s.items = some (v, t) →
      kvLookup k (workerDrain now s).items = none →
      ∃ ex, ex ∈ s.expire.items ∧ ex.key = k ∧ ex.id = t ∧ ex.time ≤ now) :=
  ⟨fun _ _ _ _ h => (tryPop_spec h).2.1,
   fun now s k v t hk hg => workerDrain_removed_witness now s k v t hk hg⟩

/-- C8 counterexample: the line `#tX` followed by CRLF begins with `#` and
is neither `#t` nor `#f` alone, yet the parser returns Boolean true rather
than the Invalid error, because only the second byte of the line is
inspected. -/
theorem boolean_line_counterexample :
    parse [35, 116, 88, 13, 10] = .ok (.boolean true, []) ∧
    (Except.ok (RedisItem.boolean true, ([] : Bytes))
      ≠ (Except.error ParseError.invalid :
          Except ParseError (RedisItem × Bytes))) :=
  ⟨rfl, by simp⟩

/-- C8 (amended): on a complete line starting with `#`, the parser decides
by the second byte alone: `t` gives Boolean true and `f` Boolean false
whatever the rest of the line (in particular for the exact lines `#t` and
`#f` followed by CRLF), and any other second byte gives the Invalid
error. -/
theorem boolean_line_parsing :
    (∀ mid : Bytes, mid.all (· ≠ 10) = true →
      parse (35 :: 116 :: (mid ++ [10])) = .ok (.boolean true, [])) ∧
    (∀ mid : Bytes, mid.all (· ≠ 10) = true →
      parse (35 :: 102 :: (mid ++ [10])) = .ok (.boolean false, [])) ∧
    (∀ (b : Nat) (mid : Bytes), b ≠ 116 → b ≠ 102 → b ≠ 10 →
      mid.all (· ≠ 10) = true →
      parse (35 :: b :: (mid ++ [10])) = .error .invalid) :=
  ⟨parse_hash_t, parse_hash_f,
   fun b mid h1 h2 h3 h4 => parse_hash_other b mid h3 h1 h2 h4⟩

/-- C3: EXPIRE semantics.  With bulk-string key and seconds arguments
whose seconds parse as an unsigned integer: an absent key replies
Integer 0 leaving the state unchanged; a present key computes
deadline = now + secs and replies Integer 1, refreshing the entry's tag
from the counter and pushing (key, new tag, deadline) when the current
tag has a pending deadline in the tag-to-deadline map, and pushing
(key, current tag, deadline) otherwise. -/
theorem expire_semantics (s : ServerState) (now : Nat) (key val : Bytes)
    (rest : List RedisItem) (secs : Nat)
    (hsecs : parseU64 val = some secs) :
    (kvLookup key s.items = none →
      doExpire now (.bulkString key :: .bulkString val :: rest) s
        = (.integer 0, s)) ∧
    (∀ v tag, kvLookup key s.items = some (v, tag) →
      (expGet tag s.expire = none →
        doExpire now (.bulkString key :: .bulkString val :: rest) s
          = (.integer 1,
             { s with expire := expirePush key tag (now + secs) s.expire })) ∧
      (∀ d, expGet tag s.expire = some d →
        doExpire now (.bulkString key :: .bulkString val :: rest) s
          = (.integer 1,
             { s with items := kvSetTag key s.tagCounter s.items,
                      tagCounter := s.tagCounter + 1,
                      expire := expirePush key s.tagCounter (now + secs)
                        s.expire }))) := by
  refine ⟨?_, ?_⟩
  · intro hnone
    unfold doExpire
    dsimp only
    rw [hsecs, hnone]
  · intro v tag hk
    refine ⟨?_, ?_⟩
    · intro hexp
      unfold doExpire
      dsimp only
      rw [hsecs, hk]
      dsimp only
      rw [hexp]
    · intro d hexp
      unfold doExpire
      dsimp only
      rw [hsecs, hk]
      dsimp only
      rw [hexp]

theorem expire_semantics_witness :
    doExpire 0 [.bulkString (ascii "x"), .bulkString (ascii "5")] initState
      = (.integer 0, initState) :=
  (expire_semantics initState 0 (ascii "x") (ascii "5") [] 5 (by rfl)).1
    (by rfl)

/-- C7: RENAME semantics.  With bulk-string source and destination: an
absent source replies the "no such key" error leaving the state
unchanged; otherwise the (value, tag) pair is removed from the source,
a record (destination, tag, deadline) is pushed exactly when the tag has
a deadline in the tag-to-deadline map, the pair is inserted at the
destination (silently overwriting any previous binding there), and the
reply is Simple-String "OK". -/
theorem rename_semantics (s : ServerState) (key dst : Bytes)
    (rest : List RedisItem) :
    (kvLookup key s.items = none →
      doRename (.bulkString key :: .bulkString dst :: rest) s
        = (.simpleError (ascii "no such key"), s)) ∧
    (∀ v tag, kvLookup key s.items = some (v, tag) →
      (expGet tag s.expire = none →
        doRename (.bulkString key :: .bulkString dst :: rest) s
          = (.simpleString (ascii "OK"),
             { s with items := kvInsert dst (v, tag) (kvRemove key s.items) })) ∧
      (∀ d, expGet tag s.expire = some d →
        doRename (.bulkString key :: .bulkString dst :: rest) s
          = (.simpleString (ascii "OK"),
             { s with items := kvInsert dst (v, tag) (kvRemove key s.items),
                      expire := expirePush dst tag d s.expire }))) := by
  refine ⟨?_, ?_⟩
  · intro hnone
    unfold doRename
    dsimp only
    rw [hnone]
  · intro v tag hk
    refine ⟨?_, ?_⟩
    · intro hexp
      unfold doRename
      dsimp only
      rw [hk]
      dsimp only
      rw [hexp]
    · intro d hexp
      unfold doRename
      dsimp only
      rw [hk]
      dsimp only
      rw [hexp]

/-- C9: RPOP on a present key whose value is not an Array replies Null
and leaves the state unchanged, both without a count argument and with
any valid one, so the Null reply does not distinguish an absent key from
a key of the wrong type (no WRONGTYPE or "invalid arguments" error is
produced). -/
theorem rpop_null_on_nonarray (s : ServerState) (key : Bytes)
    (v : RedisItem) (tag : Nat) (rest : List RedisItem)
    (hk : kvLookup key s.items = some (v, tag))
    (hv : ∀ xs, v ≠ .array xs)
    (hc : (rpopCount rest).isSome = true) :
    doRpop (.bulkString key :: rest) s = some (.null, s) := by
  unfold doRpop
  match hcnt : rpopCount rest with
  | none => rw [hcnt] at hc; exact absurd hc (by simp)
  | some cnt =>
    dsimp only
    rw [hcnt]
    dsimp only
    rw [hk]
    match v, hv with
    | .simpleString x, _ => rfl
    | .simpleError x, _ => rfl
    | .integer x, _ => rfl
    | .bulkString x, _ => rfl
    | .null, _ => rfl
    | .boolean x, _ => rfl
    | .array xs, hv => exact absurd rfl (hv xs)

theorem rpop_null_on_nonarray_witness :
    doRpop [.bulkString (ascii "k")]
        ⟨false, [(ascii "k", .bulkString (ascii "v"), 0)], ⟨[], [], false⟩, 1⟩
      = some (.null,
        ⟨false, [(ascii "k", .bulkString (ascii "v"), 0)], ⟨[], [], false⟩, 1⟩) :=
  rpop_null_on_nonarray _ (ascii "k") (.bulkString (ascii "v")) 0 []
    (by rfl) (fun xs h => RedisItem.noConfusion h) (by rfl)

theorem doDelLoop_not_atomic (keys : List Bytes) (bad : RedisItem)
    (rest : List RedisItem) (hbad : ∀ b, bad ≠ .bulkString b) :
    ∀ (counter : Nat) (s : ServerState),
      doDelLoop (keys.map RedisItem.bulkString ++ bad :: rest) counter s
        = (.simpleError (ascii "invalid arguments"),
           { s with items := keys.foldl (fun m k2 => kvRemove k2 m) s.items }) := by
  induction keys with
  | nil =>
    intro counter s
    match bad, hbad with
    | .simpleString x, _ => rfl
    | .simpleError x, _ => rfl
    | .integer x, _ => rfl
    | .array x, _ => rfl
    | .null, _ => rfl
    | .boolean x, _ => rfl
    | .bulkString x, hbad => exact absurd rfl (hbad x)
  | cons k keys ih =>
    intro counter s
    show doDelLoop (.bulkString k :: _) counter s = _
    unfold doDelLoop
    split
    · simp only [List.append_eq]
      rw [ih]
      simp only [List.foldl_cons]
    · simp only [List.append_eq]
      rw [ih]
      simp only [List.foldl_cons]

/-- C10: DEL is not atomic on error.  When the argument list is some
bulk-string keys followed by a non-bulk-string item, the reply is the
"invalid arguments" error, but every key listed before the ill-formed
argument has already been removed (removal of an absent key is a no-op),
and the arguments after it are never processed. -/
theorem del_not_atomic (s : ServerState) (keys : List Bytes)
    (bad : RedisItem) (rest : List RedisItem)
    (hbad : ∀ b, bad ≠ .bulkString b) :
    doDel (keys.map RedisItem.bulkString ++ bad :: rest) s
      = (.simpleError (ascii "invalid arguments"),
         { s with items := keys.foldl (fun m k2 => kvRemove k2 m) s.items }) :=
  doDelLoop_not_atomic keys bad rest hbad 0 s

theorem del_not_atomic_witness :
    doDel [.bulkString (ascii "a"), .integer 7, .bulkString (ascii "b")]
        ⟨false, [(ascii "a", .bulkString (ascii "x"), 0),
                 (ascii "b", .bulkString (ascii "y"), 1)], ⟨[], [], false⟩, 2⟩
      = (.simpleError (ascii "invalid arguments"),
         ⟨false, [(ascii "b", .bulkString (ascii "y"), 1)], ⟨[], [], false⟩, 2⟩) :=
  del_not_atomic _ [ascii "a"] (.integer 7) [.bulkString (ascii "b")]
    (fun b h => RedisItem.noConfusion h)

/-- C6: tag uniqueness and allocation.  In every state reachable from the
initial state by commands and worker wakeups, no two live keyspace
entries share a generation tag; and each allocating operation — SET,
RPUSH on an absent key, EXPIRE on a key with a pending expiry, PERSIST —
uses the current counter value as the tag and increments the counter. -/
theorem tag_uniqueness_and_allocation :
    (∀ (steps : List Step) (s : ServerState),
      run steps initState = some s → (tagsOf s.items).Nodup) ∧
    (∀ (s : ServerState) (key v : Bytes) (rest : List RedisItem),
      doSet (.bulkString key :: .bulkString v :: rest) s
        = (.simpleString (ascii "OK"),
           { s with items := kvInsert key (RedisItem.bulkString v, s.tagCounter) s.items,
                    tagCounter := s.tagCounter + 1 })) ∧
    (∀ (s : ServerState) (key : Bytes) (rest : List RedisItem),
      kvLookup key s.items = none →
      doRpush (.bulkString key :: rest) s
        = (.integer (rest.length : Int),
           { s with items := kvInsert key (RedisItem.array rest, s.tagCounter) s.items,
                    tagCounter := s.tagCounter + 1 })) ∧
    (∀ (s : ServerState) (now : Nat) (key val : Bytes)
        (rest : List RedisItem) (secs : Nat) (v : RedisItem) (tag d : Nat),
      parseU64 val = some secs →
      kvLookup key s.items = some (v, tag) →
      expGet tag s.expire = some d →
      doExpire now (.bulkString key :: .bulkString val :: rest) s
        = (.integer 1,
           { s with items := kvSetTag key s.tagCounter s.items,
                    tagCounter := s.tagCounter + 1,
                    expire := expirePush key s.tagCounter (now + secs)
                      s.expire })) ∧
    (∀ (s : ServerState) (key : Bytes) (rest : List RedisItem)
        (v : RedisItem) (tag : Nat),
      kvLookup key s.items = some (v, tag) →
      doPersist (.bulkString key :: rest) s
        = (.integer 1,
           { s with items := kvSetTag key s.tagCounter s.items,
                    tagCounter := s.tagCounter + 1 })) := by
  refine ⟨?_, ?_, ?_, ?_, ?_⟩
  · intro steps s h
    exact (run_inv steps initState s h initState_inv).1
  · intro s key v rest
    rfl
  · intro s key rest hnone
    unfold doRpush
    dsimp only
    rw [hnone]
  · intro s now key val rest secs v tag d hsecs hk hexp
    unfold doExpire
    dsimp only
    rw [hsecs, hk]
    dsimp only
    rw [hexp]
  · intro s key rest v tag hk
    unfold doPersist
    dsimp only
    rw [hk]

/-- C4: PERSIST protects a key from previously pushed expiries.  In any
reachable state, if PERSIST refreshes a present key's tag (replying
Integer 1), then no record in the expiration heap carries the new tag, so
however many worker wakeups later run, the entry survives with its
original value, and a GET then observes that value (when it is a bulk
string, the only stored shape GET replies with). -/
theorem persist_protects (steps : List Step) (s : ServerState) (key : Bytes)
    (v : RedisItem) (tag : Nat) (rest : List RedisItem)
    (hrun : run steps initState = some s)
    (hk : kvLookup key s.items = some (v, tag)) :
    (doPersist (.bulkString key :: rest) s).1 = .integer 1 ∧
    (∀ ex ∈ s.expire.items, ex.id ≠ s.tagCounter) ∧
    ∀ nows : List Nat,
      kvLookup key
        (workerRuns nows (doPersist (.bulkString key :: rest) s).2).items
        = some (v, s.tagCounter) ∧
      ∀ b, v = .bulkString b →
        (doGet [.bulkString key]
          (workerRuns nows (doPersist (.bulkString key :: rest) s).2)).1
          = .bulkString b := by
  have hinv := run_inv steps initState s hrun initState_inv
  have hpers : doPersist (.bulkString key :: rest) s
      = (.integer 1, { s with items := kvSetTag key s.tagCounter s.items,
                              tagCounter := s.tagCounter + 1 }) := by
    unfold doPersist
    dsimp only
    rw [hk]
  refine ⟨by rw [hpers], ?_, ?_⟩
  · intro ex hex
    exact Nat.ne_of_lt (hinv.2.2 ex hex)
  · intro nows
    have hlook : kvLookup key
        (workerRuns nows (doPersist (.bulkString key :: rest) s).2).items
        = some (v, s.tagCounter) := by
      rw [hpers]
      refine workerRuns_entry_preserved nows _ key v s.tagCounter ?_ ?_
      · exact kvLookup_kvSetTag_self s.tagCounter hk
      · intro ex hex
        exact Nat.ne_of_lt (hinv.2.2 ex hex)
    refine ⟨hlook, ?_⟩
    intro b hb
    subst hb
    unfold doGet
    dsimp only
    rw [hlook]

theorem persist_protects_witness :
    kvLookup (ascii "k")
      (workerRuns [7]
        (doPersist [.bulkString (ascii "k")]
          ⟨false, [(ascii "k", .bulkString (ascii "v"), 0)],
           ⟨[⟨ascii "k", 0, 5⟩], [(0, 5)], true⟩, 1⟩).2).items
      = some (.bulkString (ascii "v"), 1) :=
  ((persist_protects
      [.command 0 (.array [.bulkString (ascii "SET"), .bulkString (ascii "k"),
         .bulkString (ascii "v")]),
       .command 0 (.array [.bulkString (ascii "EXPIRE"),
         .bulkString (ascii "k"), .bulkString (ascii "5")])]
      ⟨false, [(ascii "k", .bulkString (ascii "v"), 0)],
       ⟨[⟨ascii "k", 0, 5⟩], [(0, 5)], true⟩, 1⟩
      (ascii "k") (.bulkString (ascii "v")) 0 []
      (by rfl) (by rfl)).2.2 [7]).1

end Feredis
